import Mathlib

/-!
Verification of the spacegate `ingest_core` clustering and spatial-indexing
engine (`scripts/ingest_core.py`).

The Python pipeline is shallowly embedded: pure helper functions become Lean
functions, SQL stages become list/finset transformations, and machine floats
become exact rationals (`ℚ`) except where the source computes a real square
root, which is embedded over `ℝ`.  Fallible code (functions that raise) is
embedded with `Except`.
-/

namespace Spacegate

/-! ### Module constants (ingest_core.py lines 14-21) -/

def PC_TO_LY : ℚ := 326156 / 100000

def BITS_PER_AXIS : ℕ := 21

def MORTON_MAX_ABS_LY : ℚ := 1000

def MORTON_N : ℕ := (1 <<< BITS_PER_AXIS) - 1

def MORTON_SCALE : ℚ := (MORTON_N : ℚ) / (2 * MORTON_MAX_ABS_LY)

def PROX_MAX_DIST_LY : ℚ := 1 / 4

def PROX_CELL_SIZE_LY : ℚ := 1 / 4

def PROX_PAIR_ESTIMATE_LIMIT : ℕ := 50000000

/-! ### Spatial key encoder `morton3d` (ingest_core.py lines 266-300)

`morton3d(x, y, z)` returns `None` when a coordinate is null, raises
`ValueError` when an axis leaves the `±MORTON_MAX_ABS_LY` domain, and
otherwise offsets, scales, rounds and clamps each axis into
`[0, MORTON_N]` and bit-interleaves the three axis integers. -/

/-- Python's builtin `round`: round half to even (banker's rounding). -/
def pythonRound (q : ℚ) : ℤ :=
  if q - ⌊q⌋ < 1 / 2 then ⌊q⌋
  else if 1 / 2 < q - ⌊q⌋ then ⌊q⌋ + 1
  else if Even ⌊q⌋ then ⌊q⌋ else ⌊q⌋ + 1

/-- The per-axis clamp `if xi < 0: xi = 0 elif xi > MORTON_N: xi = MORTON_N`. -/
def clampAxis (v : ℤ) : ℕ :=
  if v < 0 then 0
  else if (MORTON_N : ℤ) < v then MORTON_N
  else v.toNat

/-- `part1by2`: place bit `i` of `n` (masked to `BITS_PER_AXIS` bits) at
position `3*i` of the output, by the same loop as the source. -/
def part1by2 (n : ℕ) : ℕ :=
  (List.range BITS_PER_AXIS).foldl
    (fun out i => out ||| ((((n &&& MORTON_N) >>> i) &&& 1) <<< (3 * i))) 0

/-- One axis of the quantization in `morton3d`:
`int(round((c + MORTON_MAX_ABS_LY) * MORTON_SCALE))`, then the clamp. -/
def axisQuant (c : ℚ) : ℕ :=
  clampAxis (pythonRound ((c + MORTON_MAX_ABS_LY) * MORTON_SCALE))

/-- `morton3d`: null coordinates give a null key, an out-of-domain axis
raises, otherwise the three quantized axes are interleaved and OR'ed. -/
def morton3d (x y z : Option ℚ) : Except String (Option ℕ) :=
  match x, y, z with
  | some xv, some yv, some zv =>
    if MORTON_MAX_ABS_LY < |xv| ∨ MORTON_MAX_ABS_LY < |yv| ∨ MORTON_MAX_ABS_LY < |zv| then
      Except.error "Morton domain exceeded"
    else
      Except.ok (some
        (part1by2 (axisQuant xv) ||| part1by2 (axisQuant yv) <<< 1 |||
         part1by2 (axisQuant zv) <<< 2))
  | _, _, _ => Except.ok none

/-! ### Bit-level facts about `part1by2` -/

theorem testBit_foldl_or (f : ℕ → ℕ) (l : List ℕ) (a : ℕ) (j : ℕ) :
    (l.foldl (fun out i => out ||| f i) a).testBit j
      = (a.testBit j || l.any fun i => (f i).testBit j) := by
  induction l generalizing a with
  | nil => simp
  | cons i t ih =>
    simp only [List.foldl_cons, List.any_cons]
    rw [ih, Nat.testBit_lor, Bool.or_assoc]

theorem and_one_testBit (x q : ℕ) :
    (x &&& 1).testBit q = (decide (q = 0) && x.testBit 0) := by
  rcases Nat.eq_zero_or_pos q with hq | hq
  · subst hq
    simp [Nat.and_one_is_mod, Nat.testBit_zero, Nat.mod_mod_of_dvd]
  · have hq0 : q ≠ 0 := by omega
    have h1 : x &&& 1 < 2 ^ q := by
      have hle : x &&& 1 ≤ 1 := Nat.and_le_right
      have h2 : 1 < 2 ^ q := Nat.one_lt_two_pow_iff.mpr hq0
      omega
    rw [Nat.testBit_lt_two_pow h1]
    simp [hq0]

theorem shifted_axis_testBit (m i p : ℕ) :
    ((((m >>> i) &&& 1) <<< (3 * i)).testBit p = true) ↔ (p = 3 * i ∧ m.testBit i = true) := by
  rw [Nat.testBit_shiftLeft, and_one_testBit, Nat.testBit_shiftRight]
  simp only [Bool.and_eq_true, decide_eq_true_eq, Nat.add_zero]
  constructor
  · rintro ⟨h1, h2, h3⟩
    exact ⟨by omega, h3⟩
  · rintro ⟨h1, h2⟩
    subst h1
    exact ⟨by omega, by omega, h2⟩

theorem part1by2_testBit (n p : ℕ) :
    (part1by2 n).testBit p
      = (decide (p % 3 = 0) && decide (p < 63) && (n &&& MORTON_N).testBit (p / 3)) := by
  rw [Bool.eq_iff_iff]
  unfold part1by2
  rw [testBit_foldl_or]
  simp only [Nat.zero_testBit, Bool.false_or, List.any_eq_true, List.mem_range,
    shifted_axis_testBit, BITS_PER_AXIS, Bool.and_eq_true, decide_eq_true_eq]
  constructor
  · rintro ⟨i, hi, hp, hbit⟩
    subst hp
    have e3 : 3 * i / 3 = i := by omega
    exact ⟨⟨by omega, by omega⟩, by rw [e3]; exact hbit⟩
  · rintro ⟨⟨h3, h63⟩, hbit⟩
    exact ⟨p / 3, by omega, by omega, hbit⟩

theorem lt_two_pow_of_high_bits_false (x n : ℕ) (h : ∀ i, n ≤ i → x.testBit i = false) :
    x < 2 ^ n := by
  by_contra hx
  obtain ⟨i, hi, hbit⟩ := Nat.ge_two_pow_implies_high_bit_true (Nat.le_of_not_lt hx)
  rw [h i hi] at hbit
  exact Bool.false_ne_true hbit

theorem part1by2_lt (n : ℕ) : part1by2 n < 2 ^ 61 := by
  refine lt_two_pow_of_high_bits_false _ _ fun i hi => ?_
  rw [part1by2_testBit]
  have : ¬ (i % 3 = 0) ∨ ¬ (i < 63) := by omega
  rcases this with h | h <;> simp [h]

theorem MORTON_N_eq : MORTON_N = 2 ^ 21 - 1 := by decide

theorem clampAxis_le (v : ℤ) : clampAxis v ≤ MORTON_N := by
  unfold clampAxis
  split
  · exact Nat.zero_le _
  · split
    · exact Nat.le_refl _
    · next h1 h2 =>
      have : v ≤ (MORTON_N : ℤ) := le_of_not_lt h2
      omega

theorem axisQuant_lt (c : ℚ) : axisQuant c < 2 ^ 21 := by
  have h := clampAxis_le (pythonRound ((c + MORTON_MAX_ABS_LY) * MORTON_SCALE))
  have hN : MORTON_N = 2 ^ 21 - 1 := MORTON_N_eq
  unfold axisQuant
  omega

theorem axisQuant_mask (c : ℚ) : axisQuant c &&& MORTON_N = axisQuant c := by
  rw [MORTON_N_eq]
  exact Nat.and_pow_two_sub_one_of_lt_two_pow (axisQuant_lt c)

theorem part1by2_testBit_mul3 (n i : ℕ) (hn : n < 2 ^ 21) (hi : i < 21) :
    (part1by2 n).testBit (3 * i) = n.testBit i := by
  rw [part1by2_testBit, MORTON_N_eq, Nat.and_pow_two_sub_one_of_lt_two_pow hn]
  have e1 : (3 * i) % 3 = 0 := by omega
  have e2 : 3 * i < 63 := by omega
  have e3 : 3 * i / 3 = i := by omega
  simp [e1, e2, e3]

theorem part1by2_testBit_off (n q : ℕ) (h : q % 3 ≠ 0) : (part1by2 n).testBit q = false := by
  rw [part1by2_testBit]
  simp [h]

theorem shiftLeft_testBit_low (x s q : ℕ) (h : q < s) : (x <<< s).testBit q = false := by
  rw [Nat.testBit_shiftLeft]
  have hn : ¬ q ≥ s := by omega
  simp [hn]

theorem shiftLeft_testBit_high (x s q : ℕ) (h : s ≤ q) : (x <<< s).testBit q = x.testBit (q - s) := by
  rw [Nat.testBit_shiftLeft]
  have hg : q ≥ s := h
  simp [hg]

/-- The interleaved key: bit `i` of each quantized axis lands at positions
`3*i`, `3*i+1`, `3*i+2`, and the key is below `2 ^ 63`. -/
theorem mortonKey_spec (a b c : ℕ) (ha : a < 2 ^ 21) (hb : b < 2 ^ 21) (hc : c < 2 ^ 21) :
    (∀ i, i < BITS_PER_AXIS →
      ((part1by2 a ||| part1by2 b <<< 1 ||| part1by2 c <<< 2).testBit (3 * i) = a.testBit i ∧
       (part1by2 a ||| part1by2 b <<< 1 ||| part1by2 c <<< 2).testBit (3 * i + 1) = b.testBit i ∧
       (part1by2 a ||| part1by2 b <<< 1 ||| part1by2 c <<< 2).testBit (3 * i + 2) = c.testBit i)) ∧
    part1by2 a ||| part1by2 b <<< 1 ||| part1by2 c <<< 2 < 2 ^ 63 := by
  constructor
  · intro i hi
    have hiB : i < 21 := hi
    refine ⟨?_, ?_, ?_⟩
    · have hA : (part1by2 a).testBit (3 * i) = a.testBit i := part1by2_testBit_mul3 a i ha hiB
      have hB : (part1by2 b <<< 1).testBit (3 * i) = false := by
        rcases Nat.eq_zero_or_pos i with h0 | h0
        · subst h0
          exact shiftLeft_testBit_low _ _ _ (by omega)
        · rw [shiftLeft_testBit_high _ _ _ (by omega)]
          exact part1by2_testBit_off _ _ (by omega)
      have hC : (part1by2 c <<< 2).testBit (3 * i) = false := by
        rcases Nat.eq_zero_or_pos i with h0 | h0
        · subst h0
          exact shiftLeft_testBit_low _ _ _ (by omega)
        · rw [shiftLeft_testBit_high _ _ _ (by omega)]
          exact part1by2_testBit_off _ _ (by omega)
      rw [Nat.testBit_lor, Nat.testBit_lor, hA, hB, hC]
      simp
    · have hA : (part1by2 a).testBit (3 * i + 1) = false :=
        part1by2_testBit_off _ _ (by omega)
      have hB : (part1by2 b <<< 1).testBit (3 * i + 1) = b.testBit i := by
        rw [shiftLeft_testBit_high _ _ _ (by omega)]
        have e : 3 * i + 1 - 1 = 3 * i := by omega
        rw [e]
        exact part1by2_testBit_mul3 b i hb hiB
      have hC : (part1by2 c <<< 2).testBit (3 * i + 1) = false := by
        rcases Nat.eq_zero_or_pos i with h0 | h0
        · subst h0
          exact shiftLeft_testBit_low _ _ _ (by omega)
        · rw [shiftLeft_testBit_high _ _ _ (by omega)]
          exact part1by2_testBit_off _ _ (by omega)
      rw [Nat.testBit_lor, Nat.testBit_lor, hA, hB, hC]
      simp
    · have hA : (part1by2 a).testBit (3 * i + 2) = false :=
        part1by2_testBit_off _ _ (by omega)
      have hB : (part1by2 b <<< 1).testBit (3 * i + 2) = false := by
        rw [shiftLeft_testBit_high _ _ _ (by omega)]
        exact part1by2_testBit_off _ _ (by omega)
      have hC : (part1by2 c <<< 2).testBit (3 * i + 2) = c.testBit i := by
        rw [shiftLeft_testBit_high _ _ _ (by omega)]
        have e : 3 * i + 2 - 2 = 3 * i := by omega
        rw [e]
        exact part1by2_testBit_mul3 c i hc hiB
      rw [Nat.testBit_lor, Nat.testBit_lor, hA, hB, hC]
      simp
  · have h1 : part1by2 a < 2 ^ 63 := lt_trans (part1by2_lt a) (by norm_num)
    have h2 : part1by2 b <<< 1 < 2 ^ 63 := by
      rw [Nat.shiftLeft_eq]
      have hb' := part1by2_lt b
      have hm : part1by2 b * 2 ^ 1 < 2 ^ 61 * 2 ^ 1 :=
        (Nat.mul_lt_mul_right (by norm_num)).mpr hb'
      calc part1by2 b * 2 ^ 1 < 2 ^ 61 * 2 ^ 1 := hm
        _ ≤ 2 ^ 63 := by norm_num
    have h3 : part1by2 c <<< 2 < 2 ^ 63 := by
      rw [Nat.shiftLeft_eq]
      have hc' := part1by2_lt c
      have hm : part1by2 c * 2 ^ 2 < 2 ^ 61 * 2 ^ 2 :=
        (Nat.mul_lt_mul_right (by norm_num)).mpr hc'
      calc part1by2 c * 2 ^ 2 < 2 ^ 61 * 2 ^ 2 := hm
        _ ≤ 2 ^ 63 := by norm_num
    exact Nat.or_lt_two_pow (Nat.or_lt_two_pow h1 h2) h3

/-- C3: the spatial key encoder `morton3d` raises the fatal domain error for
every coordinate triple with some axis absolute value strictly greater than
the configured bound (1000 ly), never raises for a triple with all axis
absolute values at most the bound, and returns a null key whenever any
coordinate is null. -/
theorem morton3d_domain_gate :
    MORTON_MAX_ABS_LY = 1000 ∧
    (∀ x y z : ℚ,
      MORTON_MAX_ABS_LY < |x| ∨ MORTON_MAX_ABS_LY < |y| ∨ MORTON_MAX_ABS_LY < |z| →
      morton3d (some x) (some y) (some z) = Except.error "Morton domain exceeded") ∧
    (∀ x y z : ℚ, |x| ≤ MORTON_MAX_ABS_LY → |y| ≤ MORTON_MAX_ABS_LY → |z| ≤ MORTON_MAX_ABS_LY →
      ∃ k, morton3d (some x) (some y) (some z) = Except.ok (some k)) ∧
    (∀ x y z : Option ℚ, x = none ∨ y = none ∨ z = none →
      morton3d x y z = Except.ok none) := by
  refine ⟨rfl, ?_, ?_, ?_⟩
  · intro x y z h
    simp only [morton3d]
    rw [if_pos h]
  · intro x y z hx hy hz
    refine ⟨part1by2 (axisQuant x) ||| part1by2 (axisQuant y) <<< 1 |||
      part1by2 (axisQuant z) <<< 2, ?_⟩
    simp only [morton3d]
    rw [if_neg (by push_neg; exact ⟨hx, hy, hz⟩)]
  · intro x y z h
    rcases x with _ | xv <;> rcases y with _ | yv <;> rcases z with _ | zv <;>
      first
        | rfl
        | (rcases h with h | h | h <;> exact absurd h (by simp))

theorem morton3d_domain_gate_witness :
    (MORTON_MAX_ABS_LY < |(1001 : ℚ)| ∨ MORTON_MAX_ABS_LY < |(0 : ℚ)| ∨
        MORTON_MAX_ABS_LY < |(0 : ℚ)|) ∧
    morton3d (some 1001) (some 0) (some 0) = Except.error "Morton domain exceeded" ∧
    (∃ k, morton3d (some 1) (some 2) (some 3) = Except.ok (some k)) ∧
    morton3d none (some 5) (some 5) = Except.ok none := by
  have h1 : MORTON_MAX_ABS_LY < |(1001 : ℚ)| := by norm_num [MORTON_MAX_ABS_LY]
  refine ⟨Or.inl h1, morton3d_domain_gate.2.1 1001 0 0 (Or.inl h1), ?_, ?_⟩
  · exact morton3d_domain_gate.2.2.1 1 2 3 (by norm_num [MORTON_MAX_ABS_LY])
      (by norm_num [MORTON_MAX_ABS_LY]) (by norm_num [MORTON_MAX_ABS_LY])
  · exact morton3d_domain_gate.2.2.2 none (some 5) (some 5) (Or.inl rfl)

/-- C5: for every in-domain non-null coordinate triple, the Morton key is
produced by offsetting each axis by 1000, scaling by `(2^21 - 1)/2000`,
rounding, clamping each per-axis integer into `[0, 2^21 - 1]`, and placing
bit `i` of the x, y, z axis integers at key bit positions `3i`, `3i+1`,
`3i+2` respectively, so the resulting key always lies in `[0, 2^63)`. -/
theorem morton3d_key_structure (x y z : ℚ)
    (hx : |x| ≤ MORTON_MAX_ABS_LY) (hy : |y| ≤ MORTON_MAX_ABS_LY)
    (hz : |z| ≤ MORTON_MAX_ABS_LY) :
    ∃ k, morton3d (some x) (some y) (some z) = Except.ok (some k) ∧
      k = part1by2 (axisQuant x) ||| part1by2 (axisQuant y) <<< 1 |||
            part1by2 (axisQuant z) <<< 2 ∧
      (∀ c : ℚ, axisQuant c = clampAxis (pythonRound ((c + 1000) * ((2 ^ 21 - 1 : ℚ) / 2000)))) ∧
      (∀ c : ℚ, axisQuant c ≤ 2 ^ 21 - 1) ∧
      (∀ i, i < BITS_PER_AXIS →
        (k.testBit (3 * i) = (axisQuant x).testBit i ∧
         k.testBit (3 * i + 1) = (axisQuant y).testBit i ∧
         k.testBit (3 * i + 2) = (axisQuant z).testBit i)) ∧
      k < 2 ^ 63 := by
  have hscale : ∀ c : ℚ,
      axisQuant c = clampAxis (pythonRound ((c + 1000) * ((2 ^ 21 - 1 : ℚ) / 2000))) := by
    intro c
    have hN : ((MORTON_N : ℕ) : ℚ) = 2 ^ 21 - 1 := by
      rw [MORTON_N_eq]
      push_cast [Nat.cast_sub (by norm_num : 1 ≤ 2 ^ 21)]
      norm_num
    unfold axisQuant MORTON_SCALE MORTON_MAX_ABS_LY
    rw [hN]
    norm_num
  obtain ⟨hbits, hlt⟩ := mortonKey_spec (axisQuant x) (axisQuant y) (axisQuant z)
    (axisQuant_lt x) (axisQuant_lt y) (axisQuant_lt z)
  refine ⟨part1by2 (axisQuant x) ||| part1by2 (axisQuant y) <<< 1 |||
    part1by2 (axisQuant z) <<< 2, ?_, rfl, hscale, ?_, hbits, hlt⟩
  · simp only [morton3d]
    rw [if_neg (by push_neg; exact ⟨hx, hy, hz⟩)]
  · intro c
    have h := clampAxis_le (pythonRound ((c + MORTON_MAX_ABS_LY) * MORTON_SCALE))
    have hN : MORTON_N = 2 ^ 21 - 1 := MORTON_N_eq
    unfold axisQuant
    omega

theorem morton3d_key_structure_witness :
    (|(0 : ℚ)| ≤ MORTON_MAX_ABS_LY) ∧
    ∃ k, morton3d (some 0) (some 0) (some 0) = Except.ok (some k) ∧ k < 2 ^ 63 := by
  have h0 : |(0 : ℚ)| ≤ MORTON_MAX_ABS_LY := by norm_num [MORTON_MAX_ABS_LY]
  obtain ⟨k, h1, _, _, _, _, h6⟩ := morton3d_key_structure 0 0 0 h0 h0 h0
  exact ⟨h0, k, h1, h6⟩

/-! ### Name-based grouping (ingest_core.py lines 525-556 and 666-675)

The `named` CTE derives `star_name` through a fallback chain
(proper, bayer+con, flam+con, HIP, HD, Gaia) and `system_name_root` by
`regexp_replace(proper, '\s+[A-Za-z]{1,2}$', '')` when `proper` is non-null,
else null.  The `normalized` CTE lowercases, collapses non-alphanumeric runs
to single spaces and trims.  `name_groups` keys every star whose
`system_name_root_norm` is non-null by `'name:' || system_name_root_norm`. -/

/-- RE2 `\s`: tab, newline, form feed, carriage return, space. -/
def isRegexSpace (c : Char) : Bool :=
  c = ' ' || c = '\t' || c = '\n' || c = '\x0c' || c = '\r'

/-- `[A-Za-z]`. -/
def isAsciiLetter (c : Char) : Bool :=
  ('A' ≤ c && c ≤ 'Z') || ('a' ≤ c && c ≤ 'z')

/-- `[0-9A-Za-z]`. -/
def isAsciiAlnum (c : Char) : Bool :=
  ('0' ≤ c && c ≤ '9') || isAsciiLetter c

/-- `regexp_replace(s, '\s+[A-Za-z]{1,2}$', '')`: when the string ends in a
whitespace run followed by one or two ASCII letters, the leftmost-longest
match removes that whole tail; otherwise the string is unchanged. -/
def stripTrailingComponent (s : String) : String :=
  let rev := s.data.reverse
  let letters := rev.takeWhile isAsciiLetter
  let rest := rev.drop letters.length
  if (letters.length == 1 || letters.length == 2) &&
      (match rest.head? with
       | some c => isRegexSpace c
       | none => false) then
    String.mk (rest.dropWhile isRegexSpace).reverse
  else s

/-- One pass over the characters replacing each maximal non-alphanumeric run
with a single space; kept characters are lowercased (the SQL applies `lower`
after the replacement, which agrees since the inserted spaces are unaffected).
The flag records whether the previous character was inside such a run. -/
def squashAux : Bool → List Char → List Char
  | _, [] => []
  | inRun, c :: rest =>
    if isAsciiAlnum c then c.toLower :: squashAux false rest
    else if inRun then squashAux true rest
    else ' ' :: squashAux true rest

/-- SQL `trim`: strip spaces from both ends. -/
def trimSpaces (l : List Char) : List Char :=
  ((l.dropWhile (· == ' ')).reverse.dropWhile (· == ' ')).reverse

/-- `lower(trim(regexp_replace(regexp_replace(s, '[^0-9A-Za-z]+', ' ', 'g'),
'\s+', ' ', 'g')))`.  After the first replacement every whitespace run is a
single space, so the second replacement is the identity. -/
def normalizeName (s : String) : String :=
  String.mk (trimSpaces (squashAux false s.data))

/-- The naming columns of one AT-HYG row as read by the `named` CTE. -/
structure RawNames where
  proper : Option String
  bayer : Option String
  flam : Option String
  con : Option String
  hip_id : Option ℤ
  hd_id : Option ℤ
  gaia_id : Option ℤ

/-- The `star_name` fallback chain (display name). -/
def starName (r : RawNames) : Option String :=
  match r.proper with
  | some p => some p
  | none =>
    match r.bayer, r.con with
    | some b, some c => some (b ++ " " ++ c)
    | _, _ =>
      match r.flam, r.con with
      | some f, some c => some (f ++ " " ++ c)
      | _, _ =>
        match r.hip_id with
        | some h => some ("HIP " ++ toString h)
        | none =>
          match r.hd_id with
          | some h => some ("HD " ++ toString h)
          | none =>
            match r.gaia_id with
            | some g => some ("Gaia DR3 " ++ toString g)
            | none => none

/-- `system_name_root`: derived from `proper` alone (null when `proper` is null). -/
def systemNameRoot (r : RawNames) : Option String :=
  r.proper.map stripTrailingComponent

/-- `system_name_root_norm`. -/
def systemNameRootNorm (r : RawNames) : Option String :=
  (systemNameRoot r).map normalizeName

/-- The `name_groups` key of a star: present exactly when
`system_name_root_norm` is non-null. -/
def nameGroupKey (r : RawNames) : Option String :=
  (systemNameRootNorm r).map (fun n => "name:" ++ n)

/-- Modelled from the claim (not from the code): the fallback chain the spec
asserts for the system-name root - strip the proper name, else
Bayer+constellation, else Flamsteed+constellation, else the primary external
catalog ID. -/
def claimedSystemNameRoot (r : RawNames) : Option String :=
  match r.proper with
  | some p => some (stripTrailingComponent p)
  | none =>
    match r.bayer, r.con with
    | some b, some c => some (b ++ " " ++ c)
    | _, _ =>
      match r.flam, r.con with
      | some f, some c => some (f ++ " " ++ c)
      | _, _ =>
        match r.gaia_id with
        | some g => some ("Gaia DR3 " ++ toString g)
        | none => none

/-- C2 counterexample: a star with no proper name but with Bayer designation
and constellation present is left without a name-group key by the code, while
the claimed fallback chain would give it the root "Alp Cen"; the claim is
false on this input. -/
theorem name_root_fallback_counterexample :
    systemNameRootNorm ⟨none, some "Alp", some "61", some "Cen",
        some 71681, some 128620, some 131⟩ = none ∧
    nameGroupKey ⟨none, some "Alp", some "61", some "Cen",
        some 71681, some 128620, some 131⟩ = none ∧
    claimedSystemNameRoot ⟨none, some "Alp", some "61", some "Cen",
        some 71681, some 128620, some 131⟩ = some ("Alp" ++ " " ++ "Cen") := by
  refine ⟨rfl, rfl, rfl⟩

/-- C2 amended: the normalized system-name root used as the name-group key is
derived by stripping a trailing one-or-two-letter token from the free-text
proper name only; when no proper name exists the root is null and the star is
left ungrouped by name (no fallback chain is applied to the root - the
Bayer/Flamsteed/catalog-ID chain feeds only the display name `star_name`). -/
theorem name_root_from_proper_only :
    (∀ (r : RawNames) (p : String), r.proper = some p →
      systemNameRoot r = some (stripTrailingComponent p) ∧
      nameGroupKey r = some ("name:" ++ normalizeName (stripTrailingComponent p))) ∧
    (∀ r : RawNames, r.proper = none →
      systemNameRoot r = none ∧ systemNameRootNorm r = none ∧ nameGroupKey r = none) ∧
    stripTrailingComponent "61 Cygni B" = "61 Cygni" ∧
    normalizeName "61 Cygni" = "61 cygni" := by
  refine ⟨?_, ?_, ?_, ?_⟩
  · intro r p hp
    constructor
    · rw [systemNameRoot, hp, Option.map_some']
    · rw [nameGroupKey, systemNameRootNorm, systemNameRoot, hp, Option.map_some',
        Option.map_some', Option.map_some']
  · intro r hp
    refine ⟨?_, ?_, ?_⟩ <;>
      simp [systemNameRoot, systemNameRootNorm, nameGroupKey, hp]
  · rfl
  · rfl

theorem name_root_from_proper_only_witness :
    (⟨some "61 Cygni B", none, none, none, none, none, none⟩ : RawNames).proper
        = some "61 Cygni B" ∧
    systemNameRoot ⟨some "61 Cygni B", none, none, none, none, none, none⟩
        = some (stripTrailingComponent "61 Cygni B") ∧
    nameGroupKey ⟨some "61 Cygni B", none, none, none, none, none, none⟩
        = some ("name:" ++ normalizeName (stripTrailingComponent "61 Cygni B")) := by
  have h := name_root_from_proper_only.1
    ⟨some "61 Cygni B", none, none, none, none, none, none⟩ "61 Cygni B" rfl
  exact ⟨rfl, h.1, h.2⟩

/-! ### UnionFind (ingest_core.py lines 230-263)

The Python class keeps `parent` and `rank` dicts.  A dict whose absent keys
behave as self-parent and rank zero is embedded as a total function together
with the finite set `dom` of inserted keys; `add` writes the defaults and
records the key exactly as the Python `add` does.  `find` is recursive with
path compression; its recursion depth is bounded by the number of keys (ranks
strictly increase along parent links), so the recursion carries explicit fuel
`dom.card + 1`, which the invariant lemmas below show is never exhausted. -/

structure UnionFind where
  parent : ℤ → ℤ
  rank : ℤ → ℕ
  dom : Finset ℤ

def UnionFind.empty : UnionFind := ⟨fun x => x, fun _ => 0, ∅⟩

/-- `add`: `if x not in self.parent: self.parent[x] = x; self.rank[x] = 0`. -/
def UnionFind.add (s : UnionFind) (x : ℤ) : UnionFind :=
  if x ∈ s.dom then s
  else ⟨Function.update s.parent x x, Function.update s.rank x 0, insert x s.dom⟩

/-- The recursive body of `find`: `root = parent[x]; if root != x:
parent[x] = find(root); return parent[x]`, with path compression.  The fuel
argument only bounds the recursion depth. -/
def findAux : ℕ → (ℤ → ℤ) → ℤ → (ℤ → ℤ) × ℤ
  | 0, p, x => (p, x)
  | fuel + 1, p, x =>
    if p x = x then (p, x)
    else
      let r := findAux fuel p (p x)
      (Function.update r.1 x r.2, r.2)

/-- `find`: add the key, then follow and compress the parent chain. -/
def UnionFind.find (s : UnionFind) (x : ℤ) : UnionFind × ℤ :=
  let s1 := s.add x
  let r := findAux (s1.dom.card + 1) s1.parent x
  (⟨r.1, s1.rank, s1.dom⟩, r.2)

/-- `union`: add both keys, find both roots, then link by rank
(`parent[ra] = rb` when `rank[ra] < rank[rb]`, `parent[rb] = ra` when
`rank[ra] > rank[rb]`, else `parent[rb] = ra; rank[ra] += 1`). -/
def UnionFind.union (s : UnionFind) (a b : ℤ) : UnionFind :=
  let s1 := (s.add a).add b
  let fa := s1.find a
  let fb := fa.1.find b
  let s3 := fb.1
  let ra := fa.2
  let rb := fb.2
  if ra = rb then s3
  else if s3.rank ra < s3.rank rb then
    ⟨Function.update s3.parent ra rb, s3.rank, s3.dom⟩
  else if s3.rank rb < s3.rank ra then
    ⟨Function.update s3.parent rb ra, s3.rank, s3.dom⟩
  else
    ⟨Function.update s3.parent rb ra,
     Function.update s3.rank ra (s3.rank ra + 1), s3.dom⟩

/-- `items`: the set of inserted keys. -/
def UnionFind.items (s : UnionFind) : Finset ℤ := s.dom

/-- The proximity loop feeds every emitted pair to `union` in order. -/
def processPairs (l : List (ℤ × ℤ)) : UnionFind :=
  l.foldl (fun s ab => s.union ab.1 ab.2) UnionFind.empty

/-- Pure root walk along the parent chain (no compression), the semantics
against which `find` is verified. -/
def rootN : ℕ → (ℤ → ℤ) → ℤ → ℤ
  | 0, _, x => x
  | fuel + 1, p, x => if p x = x then x else rootN fuel p (p x)

/-- The current representative of `x` in state `s`. -/
def UnionFind.rootOf (s : UnionFind) (x : ℤ) : ℤ :=
  rootN (s.dom.card + 1) s.parent x

/-- The structural invariant of every reachable state: keys outside the dict
have default values, parents of keys are keys, and rank strictly increases
along proper parent links. -/
def Inv (s : UnionFind) : Prop :=
  (∀ x, x ∉ s.dom → s.parent x = x ∧ s.rank x = 0) ∧
  (∀ x, x ∈ s.dom → s.parent x ∈ s.dom) ∧
  (∀ x, s.parent x ≠ x → s.rank x < s.rank (s.parent x))

/-- Reachability along the parent chain. -/
def Steps (p : ℤ → ℤ) : ℤ → ℤ → Prop :=
  Relation.ReflTransGen (fun u v => v = p u)

/-- `r` is the root of `x`'s chain. -/
def ReachesRoot (p : ℤ → ℤ) (x r : ℤ) : Prop :=
  Steps p x r ∧ p r = r

/-- Number of keys of strictly larger rank: the termination measure of the
parent walk. -/
def rkMeasure (rk : ℤ → ℕ) (d : Finset ℤ) (x : ℤ) : ℕ :=
  (d.filter fun y => rk x < rk y).card

/-- The pair relation generated by a pair list. -/
def pairMem (l : List (ℤ × ℤ)) (u v : ℤ) : Prop := (u, v) ∈ l

/-! #### Chain semantics of the parent function -/

theorem steps_refl (p : ℤ → ℤ) (x : ℤ) : Steps p x x := Relation.ReflTransGen.refl

theorem steps_parent (p : ℤ → ℤ) (x : ℤ) : Steps p x (p x) :=
  Relation.ReflTransGen.single rfl

theorem steps_trans {p : ℤ → ℤ} {x y z : ℤ} (h1 : Steps p x y) (h2 : Steps p y z) :
    Steps p x z :=
  Relation.ReflTransGen.trans h1 h2

theorem steps_of_root {p : ℤ → ℤ} {r y : ℤ} (hr : p r = r) (h : Steps p r y) : y = r := by
  induction h with
  | refl => rfl
  | tail h1 h2 ih => rw [h2, ih, hr]

theorem steps_linear {p : ℤ → ℤ} {x y z : ℤ} (hxy : Steps p x y) (hxz : Steps p x z) :
    Steps p y z ∨ Steps p z y := by
  induction hxy with
  | refl => exact Or.inl hxz
  | tail h1 h2 ih =>
    rename_i b c
    rcases ih with hbz | hzb
    · rcases Relation.ReflTransGen.cases_head hbz with rfl | ⟨u, hu, huz⟩
      · exact Or.inr (h2 ▸ steps_parent p b)
      · rw [h2, ← hu]
        exact Or.inl huz
    · exact Or.inr (hzb.tail h2)

theorem reachesRoot_unique {p : ℤ → ℤ} {x r r' : ℤ}
    (h1 : ReachesRoot p x r) (h2 : ReachesRoot p x r') : r = r' := by
  rcases steps_linear h1.1 h2.1 with h | h
  · exact (steps_of_root h1.2 h).symm
  · exact steps_of_root h2.2 h

theorem rkMeasure_parent_lt {p : ℤ → ℤ} {rk : ℤ → ℕ} {d : Finset ℤ}
    (hdef : ∀ x, x ∉ d → p x = x) (hcl : ∀ x, x ∈ d → p x ∈ d)
    (hrk : ∀ x, p x ≠ x → rk x < rk (p x)) {x : ℤ} (hx : p x ≠ x) :
    rkMeasure rk d (p x) < rkMeasure rk d x := by
  have hxd : x ∈ d := by
    by_contra h
    exact hx (hdef x h)
  have hpd : p x ∈ d := hcl x hxd
  have hlt : rk x < rk (p x) := hrk x hx
  apply Finset.card_lt_card
  rw [Finset.ssubset_iff_of_subset]
  · exact ⟨p x, by simp [rkMeasure, Finset.mem_filter, hpd, hlt]⟩
  · intro y hy
    simp only [Finset.mem_filter] at hy ⊢
    exact ⟨hy.1, lt_trans hlt hy.2⟩

theorem rkMeasure_le_card (rk : ℤ → ℕ) (d : Finset ℤ) (x : ℤ) :
    rkMeasure rk d x ≤ d.card :=
  Finset.card_le_card (Finset.filter_subset _ _)

theorem rootN_reachesRoot {p : ℤ → ℤ} {rk : ℤ → ℕ} {d : Finset ℤ}
    (hdef : ∀ x, x ∉ d → p x = x) (hcl : ∀ x, x ∈ d → p x ∈ d)
    (hrk : ∀ x, p x ≠ x → rk x < rk (p x)) :
    ∀ (fuel : ℕ) (x : ℤ), rkMeasure rk d x < fuel → ReachesRoot p x (rootN fuel p x) := by
  intro fuel
  induction fuel with
  | zero => intro x hx; omega
  | succ n ih =>
    intro x hx
    by_cases h : p x = x
    · rw [rootN, if_pos h]
      exact ⟨steps_refl p x, h⟩
    · have hm := rkMeasure_parent_lt hdef hcl hrk h
      have hrec := ih (p x) (by omega)
      rw [rootN, if_neg h]
      exact ⟨steps_trans (steps_parent p x) hrec.1, hrec.2⟩

theorem rootOf_reaches (s : UnionFind) (h : Inv s) (x : ℤ) :
    ReachesRoot s.parent x (s.rootOf x) := by
  obtain ⟨hdef, hcl, hrk⟩ := h
  exact rootN_reachesRoot (fun y hy => (hdef y hy).1) hcl hrk _ x
    (by have := rkMeasure_le_card s.rank s.dom x; omega)

theorem rootOf_eq_of_reaches (s : UnionFind) (h : Inv s) {x r : ℤ}
    (hr : ReachesRoot s.parent x r) : s.rootOf x = r :=
  reachesRoot_unique (rootOf_reaches s h x) hr

theorem rootOf_parent_fix (s : UnionFind) (h : Inv s) (x : ℤ) :
    s.parent (s.rootOf x) = s.rootOf x :=
  (rootOf_reaches s h x).2

theorem rootOf_of_fix (s : UnionFind) (h : Inv s) {x : ℤ} (hx : s.parent x = x) :
    s.rootOf x = x :=
  rootOf_eq_of_reaches s h ⟨steps_refl _ _, hx⟩

theorem steps_parent_to_root (s : UnionFind) (h : Inv s) (x : ℤ) :
    Steps s.parent (s.parent x) (s.rootOf x) := by
  obtain ⟨hst, hfix⟩ := rootOf_reaches s h x
  rcases Relation.ReflTransGen.cases_head hst with heq | ⟨u, hu, hsteps⟩
  · rw [← heq] at hfix ⊢
    rw [hfix]
    exact steps_refl _ _
  · subst hu
    exact hsteps

theorem rootOf_parent_eq (s : UnionFind) (h : Inv s) (x : ℤ) :
    s.rootOf (s.parent x) = s.rootOf x :=
  rootOf_eq_of_reaches s h ⟨steps_parent_to_root s h x, rootOf_parent_fix s h x⟩

theorem rank_le_of_steps {s : UnionFind} (h : Inv s) {x y : ℤ}
    (hs : Steps s.parent x y) : s.rank x ≤ s.rank y := by
  induction hs with
  | refl => exact le_refl _
  | tail h1 h2 ih =>
    rename_i b c
    by_cases hb : s.parent b = b
    · rw [h2, hb]
      exact ih
    · exact le_trans ih (le_of_lt (h2 ▸ h.2.2 b hb))

theorem rank_lt_root {s : UnionFind} (h : Inv s) {x : ℤ} (hx : s.parent x ≠ x) :
    s.rank x < s.rank (s.rootOf x) :=
  lt_of_lt_of_le (h.2.2 x hx) (rank_le_of_steps h (steps_parent_to_root s h x))

theorem steps_mem_dom (s : UnionFind) (h : Inv s) {x y : ℤ}
    (hst : Steps s.parent x y) (hx : x ∈ s.dom) : y ∈ s.dom := by
  induction hst with
  | refl => exact hx
  | tail h1 h2 ih => exact h2 ▸ h.2.1 _ ih

theorem rootOf_mem_dom (s : UnionFind) (h : Inv s) {x : ℤ} (hx : x ∈ s.dom) :
    s.rootOf x ∈ s.dom :=
  steps_mem_dom s h (rootOf_reaches s h x).1 hx

/-! #### Path compression: `findAux` returns the root and only rewires
chain nodes to their own root -/

theorem findAux_succ (n : ℕ) (p : ℤ → ℤ) (x : ℤ) :
    findAux (n + 1) p x =
      if p x = x then (p, x)
      else (Function.update (findAux n p (p x)).1 x (findAux n p (p x)).2,
            (findAux n p (p x)).2) := rfl

theorem findAux_spec (s : UnionFind) (h : Inv s) :
    ∀ (fuel : ℕ) (x : ℤ), rkMeasure s.rank s.dom x < fuel →
      (findAux fuel s.parent x).2 = s.rootOf x ∧
      (∀ y, (findAux fuel s.parent x).1 y = s.parent y ∨
        ((findAux fuel s.parent x).1 y = s.rootOf y ∧ s.parent y ≠ y)) := by
  have hdef : ∀ z, z ∉ s.dom → s.parent z = z := fun z hz => (h.1 z hz).1
  intro fuel
  induction fuel with
  | zero => intro x hx; omega
  | succ n ih =>
    intro x hx
    by_cases hpx : s.parent x = x
    · rw [findAux_succ, if_pos hpx]
      exact ⟨(rootOf_of_fix s h hpx).symm, fun y => Or.inl rfl⟩
    · have hm := rkMeasure_parent_lt hdef h.2.1 h.2.2 hpx
      obtain ⟨ih2, ih3⟩ := ih (s.parent x) (by omega)
      rw [findAux_succ, if_neg hpx]
      constructor
      · show (findAux n s.parent (s.parent x)).2 = s.rootOf x
        rw [ih2, rootOf_parent_eq s h]
      · intro y
        by_cases hyx : y = x
        · subst hyx
          refine Or.inr ⟨?_, hpx⟩
          show Function.update _ y _ y = _
          rw [Function.update_same, ih2, rootOf_parent_eq s h]
        · rcases ih3 y with h3 | ⟨h3, hne⟩
          · exact Or.inl ((Function.update_noteq hyx _ _).trans h3)
          · exact Or.inr ⟨(Function.update_noteq hyx _ _).trans h3, hne⟩

theorem findAux_inv_roots (s : UnionFind) (h : Inv s) (fuel : ℕ) (x : ℤ)
    (hf : rkMeasure s.rank s.dom x < fuel) :
    Inv ⟨(findAux fuel s.parent x).1, s.rank, s.dom⟩ ∧
    (∀ y, UnionFind.rootOf ⟨(findAux fuel s.parent x).1, s.rank, s.dom⟩ y = s.rootOf y) := by
  obtain ⟨hsnd, hupd⟩ := findAux_spec s h fuel x hf
  have hdef : ∀ z, z ∉ s.dom → s.parent z = z := fun z hz => (h.1 z hz).1
  set p' := (findAux fuel s.parent x).1 with hp'
  have hInv' : Inv ⟨p', s.rank, s.dom⟩ := by
    refine ⟨?_, ?_, ?_⟩
    · intro y hy
      rcases hupd y with he | ⟨he, hne⟩
      · refine ⟨?_, (h.1 y hy).2⟩
        show p' y = y
        rw [he]
        exact (h.1 y hy).1
      · exact absurd (h.1 y hy).1 hne
    · intro y hy
      rcases hupd y with he | ⟨he, hne⟩
      · show p' y ∈ s.dom
        rw [he]
        exact h.2.1 y hy
      · show p' y ∈ s.dom
        rw [he]
        exact rootOf_mem_dom s h hy
    · intro y hny
      rcases hupd y with he | ⟨he, hne⟩
      · show s.rank y < s.rank (p' y)
        rw [he]
        refine h.2.2 y ?_
        show s.parent y ≠ y
        rw [← he]
        exact hny
      · show s.rank y < s.rank (p' y)
        rw [he]
        exact rank_lt_root h hne
  have fixcase : ∀ y, s.parent y = y →
      UnionFind.rootOf ⟨p', s.rank, s.dom⟩ y = s.rootOf y := by
    intro y hpy
    have hp'y : p' y = y := by
      rcases hupd y with he | ⟨he, hne⟩
      · rw [he, hpy]
      · exact absurd hpy hne
    rw [rootOf_of_fix _ hInv' hp'y, rootOf_of_fix s h hpy]
  refine ⟨hInv', ?_⟩
  have main : ∀ (n : ℕ) (y : ℤ), rkMeasure s.rank s.dom y ≤ n →
      UnionFind.rootOf ⟨p', s.rank, s.dom⟩ y = s.rootOf y := by
    intro n
    induction n with
    | zero =>
      intro y hy
      refine fixcase y ?_
      by_contra hne
      have := rkMeasure_parent_lt hdef h.2.1 h.2.2 hne
      omega
    | succ n ihn =>
      intro y hy
      by_cases hpy : s.parent y = y
      · exact fixcase y hpy
      · rcases hupd y with he | ⟨he, hne⟩
        · have hm := rkMeasure_parent_lt hdef h.2.1 h.2.2 hpy
          have ihp := ihn (s.parent y) (by omega)
          have hpe : (⟨p', s.rank, s.dom⟩ : UnionFind).parent y = s.parent y := he
          have h1 := rootOf_parent_eq ⟨p', s.rank, s.dom⟩ hInv' y
          rw [hpe] at h1
          rw [← h1, ihp, rootOf_parent_eq s h]
        · have hroot : s.parent (s.rootOf y) = s.rootOf y := rootOf_parent_fix s h y
          have hfix' : p' (s.rootOf y) = s.rootOf y := by
            rcases hupd (s.rootOf y) with he2 | ⟨he2, hne2⟩
            · rw [he2, hroot]
            · exact absurd hroot hne2
          have hpe : (⟨p', s.rank, s.dom⟩ : UnionFind).parent y = s.rootOf y := he
          have h1 := rootOf_parent_eq ⟨p', s.rank, s.dom⟩ hInv' y
          rw [hpe] at h1
          rw [← h1, rootOf_of_fix _ hInv' hfix']
  intro y
  exact main _ y (le_refl _)

/-! #### `add`, `find` and `union` preserve the invariant and the partition -/

theorem add_spec (s : UnionFind) (h : Inv s) (x : ℤ) :
    (s.add x).parent = s.parent ∧ (s.add x).rank = s.rank ∧
    (s.add x).dom = insert x s.dom ∧ Inv (s.add x) ∧
    (∀ y, (s.add x).rootOf y = s.rootOf y) := by
  have hInvIns : Inv ⟨s.parent, s.rank, insert x s.dom⟩ := by
    refine ⟨fun y hy => h.1 y fun hc => hy (Finset.mem_insert_of_mem hc), ?_, h.2.2⟩
    intro y hy
    rcases Finset.mem_insert.mp hy with rfl | hmem
    · show s.parent y ∈ insert y s.dom
      by_cases hyd : y ∈ s.dom
      · exact Finset.mem_insert_of_mem (h.2.1 y hyd)
      · rw [(h.1 y hyd).1]
        exact Finset.mem_insert_self y _
    · exact Finset.mem_insert_of_mem (h.2.1 y hmem)
  by_cases hx : x ∈ s.dom
  · rw [UnionFind.add, if_pos hx]
    exact ⟨rfl, rfl, (Finset.insert_eq_self.mpr hx).symm, h, fun y => rfl⟩
  · rw [UnionFind.add, if_neg hx]
    have hp : Function.update s.parent x x = s.parent := by
      funext y
      by_cases hyx : y = x
      · subst hyx
        rw [Function.update_same, (h.1 y hx).1]
      · rw [Function.update_noteq hyx]
    have hr : Function.update s.rank x 0 = s.rank := by
      funext y
      by_cases hyx : y = x
      · subst hyx
        rw [Function.update_same, (h.1 y hx).2]
      · rw [Function.update_noteq hyx]
    rw [hp, hr]
    refine ⟨rfl, rfl, rfl, hInvIns, fun y => ?_⟩
    exact rootOf_eq_of_reaches ⟨s.parent, s.rank, insert x s.dom⟩ hInvIns
      (rootOf_reaches s h y)

theorem find_spec (s : UnionFind) (h : Inv s) (x : ℤ) :
    Inv (s.find x).1 ∧ (s.find x).1.rank = s.rank ∧
    (s.find x).1.dom = insert x s.dom ∧
    (∀ y, (s.find x).1.rootOf y = s.rootOf y) ∧
    (s.find x).2 = s.rootOf x := by
  obtain ⟨hp, hr, hd, hInv1, hroots1⟩ := add_spec s h x
  have hm : rkMeasure (s.add x).rank (s.add x).dom x < (s.add x).dom.card + 1 :=
    lt_of_le_of_lt (rkMeasure_le_card _ _ _) (lt_add_one _)
  obtain ⟨hInv2, hroots2⟩ :=
    findAux_inv_roots (s.add x) hInv1 ((s.add x).dom.card + 1) x hm
  obtain ⟨hsnd, _⟩ := findAux_spec (s.add x) hInv1 ((s.add x).dom.card + 1) x hm
  refine ⟨hInv2, hr, hd, ?_, ?_⟩
  · intro y
    exact (hroots2 y).trans (hroots1 y)
  · exact hsnd.trans (hroots1 x)

theorem update_reachesRoot {p : ℤ → ℤ} {rc rt : ℤ} (hrc : p rc = rc) (hrt : p rt = rt)
    (hne : rc ≠ rt) {z r : ℤ} (hz : ReachesRoot p z r) :
    ReachesRoot (Function.update p rc rt) z (if r = rc then rt else r) := by
  obtain ⟨hsteps, hfix⟩ := hz
  by_cases hr : r = rc
  · rw [if_pos hr]
    rw [hr] at hsteps
    have transport : ∀ {v : ℤ}, Steps p v rc → Steps (Function.update p rc rt) v rt := by
      intro v hv
      induction hv using Relation.ReflTransGen.head_induction_on with
      | refl =>
        exact Relation.ReflTransGen.single (Function.update_same rc rt p).symm
      | head hstep hrest ih =>
        rename_i u w
        by_cases huc : u = rc
        · subst huc
          have hw : w = u := by rw [hstep, hrc]
          exact hw ▸ ih
        · exact Relation.ReflTransGen.head
            (by rw [Function.update_noteq huc]; exact hstep) ih
    refine ⟨transport hsteps, ?_⟩
    rw [Function.update_noteq (Ne.symm hne)]
    exact hrt
  · rw [if_neg hr]
    have transport : ∀ {v : ℤ}, Steps p v r → v ≠ rc →
        Steps (Function.update p rc rt) v r := by
      intro v hv
      induction hv using Relation.ReflTransGen.head_induction_on with
      | refl => exact fun _ => Relation.ReflTransGen.refl
      | head hstep hrest ih =>
        rename_i u w
        intro huc
        have hwc : w ≠ rc := by
          intro hwc
          subst hwc
          exact hr (steps_of_root hrc hrest)
        exact Relation.ReflTransGen.head
          (by rw [Function.update_noteq huc]; exact hstep) (ih hwc)
    have hzc : z ≠ rc := by
      intro hzc
      subst hzc
      exact hr (steps_of_root hrc hsteps)
    refine ⟨transport hsteps hzc, ?_⟩
    rw [Function.update_noteq hr]
    exact hfix

/-- Linking one root under another: the new state stays well formed (given a
rank function compatible with the new edge) and exactly the linked class is
re-rooted. -/
theorem link_state_spec (t : UnionFind) (hInv : Inv t) (rc rt : ℤ)
    (hrc : t.parent rc = rc) (hrt : t.parent rt = rt) (hne : rc ≠ rt)
    (hrcd : rc ∈ t.dom) (hrtd : rt ∈ t.dom) (rk' : ℤ → ℕ)
    (hrk0 : ∀ y, y ∉ t.dom → rk' y = 0)
    (hrkc : rk' rc < rk' rt)
    (hrkother : ∀ y, t.parent y ≠ y → rk' y < rk' (t.parent y)) :
    Inv ⟨Function.update t.parent rc rt, rk', t.dom⟩ ∧
    ∀ z, UnionFind.rootOf ⟨Function.update t.parent rc rt, rk', t.dom⟩ z
        = if t.rootOf z = rc then rt else t.rootOf z := by
  have hInv' : Inv ⟨Function.update t.parent rc rt, rk', t.dom⟩ := by
    refine ⟨?_, ?_, ?_⟩
    · intro y hy
      have hyc : y ≠ rc := fun hc => hy (hc ▸ hrcd)
      refine ⟨?_, hrk0 y hy⟩
      show Function.update t.parent rc rt y = y
      rw [Function.update_noteq hyc]
      exact (hInv.1 y hy).1
    · intro y hy
      by_cases hyc : y = rc
      · subst hyc
        show Function.update t.parent y rt y ∈ t.dom
        rw [Function.update_same]
        exact hrtd
      · show Function.update t.parent rc rt y ∈ t.dom
        rw [Function.update_noteq hyc]
        exact hInv.2.1 y hy
    · intro y hy
      by_cases hyc : y = rc
      · subst hyc
        show rk' y < rk' (Function.update t.parent y rt y)
        rw [Function.update_same]
        exact hrkc
      · have he : Function.update t.parent rc rt y = t.parent y :=
          Function.update_noteq hyc _ _
        have hy' : t.parent y ≠ y := by
          rw [← he]
          exact hy
        show rk' y < rk' (Function.update t.parent rc rt y)
        rw [he]
        exact hrkother y hy'
  refine ⟨hInv', fun z => ?_⟩
  exact rootOf_eq_of_reaches _ hInv'
    (update_reachesRoot hrc hrt hne (rootOf_reaches t hInv z))

theorem union_spec (s : UnionFind) (h : Inv s) (a b : ℤ) :
    Inv (s.union a b) ∧
    ∃ r, (r = s.rootOf a ∨ r = s.rootOf b) ∧
      ∀ z, (s.union a b).rootOf z =
        if s.rootOf z = s.rootOf a ∨ s.rootOf z = s.rootOf b then r
        else s.rootOf z := by
  obtain ⟨hp1a, hr1a, hd1a, hInv1a, hroots1a⟩ := add_spec s h a
  obtain ⟨hp1, hr1, hd1, hInv1, hroots1⟩ := add_spec (s.add a) hInv1a b
  have hroots1' : ∀ y, ((s.add a).add b).rootOf y = s.rootOf y := fun y =>
    (hroots1 y).trans (hroots1a y)
  obtain ⟨hInv2, hrank2, hdom2, hroots2, hfst2⟩ := find_spec ((s.add a).add b) hInv1 a
  obtain ⟨hInv3, hrank3, hdom3, hroots3, hfst3⟩ :=
    find_spec (((s.add a).add b).find a).1 hInv2 b
  set s3 := ((((s.add a).add b).find a).1.find b).1 with hs3
  set ra' := (((s.add a).add b).find a).2 with hra'
  set rb' := ((((s.add a).add b).find a).1.find b).2 with hrb'
  have hra : ra' = s.rootOf a := hfst2.trans (hroots1' a)
  have hrb : rb' = s.rootOf b := hfst3.trans ((hroots2 b).trans (hroots1' b))
  have hroots3' : ∀ y, s3.rootOf y = s.rootOf y := fun y =>
    (hroots3 y).trans ((hroots2 y).trans (hroots1' y))
  have hfixa : s3.parent ra' = ra' := by
    have hthis := rootOf_parent_fix s3 hInv3 a
    rw [hroots3' a, ← hra] at hthis
    exact hthis
  have hfixb : s3.parent rb' = rb' := by
    have hthis := rootOf_parent_fix s3 hInv3 b
    rw [hroots3' b, ← hrb] at hthis
    exact hthis
  have hadom : a ∈ s3.dom := by
    rw [hdom3, hdom2]
    simp
  have hbdom : b ∈ s3.dom := by
    rw [hdom3]
    simp
  have hradom : ra' ∈ s3.dom := by
    have hm := rootOf_mem_dom s3 hInv3 hadom
    rwa [hroots3' a, ← hra] at hm
  have hrbdom : rb' ∈ s3.dom := by
    have hm := rootOf_mem_dom s3 hInv3 hbdom
    rwa [hroots3' b, ← hrb] at hm
  have hu : s.union a b =
      (if ra' = rb' then s3
       else if s3.rank ra' < s3.rank rb' then
         ⟨Function.update s3.parent ra' rb', s3.rank, s3.dom⟩
       else if s3.rank rb' < s3.rank ra' then
         ⟨Function.update s3.parent rb' ra', s3.rank, s3.dom⟩
       else
         ⟨Function.update s3.parent rb' ra',
          Function.update s3.rank ra' (s3.rank ra' + 1), s3.dom⟩) := rfl
  rw [hu]
  by_cases h12 : ra' = rb'
  · rw [if_pos h12]
    have hab : s.rootOf a = s.rootOf b := by
      rw [← hra, ← hrb, h12]
    refine ⟨hInv3, s.rootOf a, Or.inl rfl, fun z => ?_⟩
    rw [hroots3' z]
    by_cases hz : s.rootOf z = s.rootOf a ∨ s.rootOf z = s.rootOf b
    · rw [if_pos hz]
      rcases hz with hz | hz
      · exact hz
      · rw [hz, hab]
    · rw [if_neg hz]
  · rw [if_neg h12]
    by_cases hlt1 : s3.rank ra' < s3.rank rb'
    · rw [if_pos hlt1]
      obtain ⟨hInv4, hroots4⟩ := link_state_spec s3 hInv3 ra' rb' hfixa hfixb h12
        hradom hrbdom s3.rank (fun y hy => (hInv3.1 y hy).2) hlt1 hInv3.2.2
      refine ⟨hInv4, s.rootOf b, Or.inr rfl, fun z => ?_⟩
      rw [hroots4 z, hroots3' z, hra, hrb]
      by_cases hz1 : s.rootOf z = s.rootOf a
      · rw [if_pos hz1, if_pos (Or.inl hz1)]
      · by_cases hz2 : s.rootOf z = s.rootOf b
        · rw [if_neg hz1, if_pos (Or.inr hz2)]
          exact hz2
        · rw [if_neg hz1, if_neg (not_or.mpr ⟨hz1, hz2⟩)]
    · rw [if_neg hlt1]
      by_cases hlt2 : s3.rank rb' < s3.rank ra'
      · rw [if_pos hlt2]
        obtain ⟨hInv4, hroots4⟩ := link_state_spec s3 hInv3 rb' ra' hfixb hfixa
          (Ne.symm h12) hrbdom hradom s3.rank (fun y hy => (hInv3.1 y hy).2)
          hlt2 hInv3.2.2
        refine ⟨hInv4, s.rootOf a, Or.inl rfl, fun z => ?_⟩
        rw [hroots4 z, hroots3' z, hra, hrb]
        by_cases hz2 : s.rootOf z = s.rootOf b
        · rw [if_pos hz2, if_pos (Or.inr hz2)]
        · by_cases hz1 : s.rootOf z = s.rootOf a
          · rw [if_neg hz2, if_pos (Or.inl hz1)]
            exact hz1
          · rw [if_neg hz2, if_neg (not_or.mpr ⟨hz1, hz2⟩)]
      · rw [if_neg hlt2]
        have hrkeq : s3.rank ra' = s3.rank rb' := by omega
        have hrk0 : ∀ y, y ∉ s3.dom → Function.update s3.rank ra' (s3.rank ra' + 1) y = 0 := by
          intro y hy
          have hyc : y ≠ ra' := fun hc => hy (hc ▸ hradom)
          rw [Function.update_noteq hyc]
          exact (hInv3.1 y hy).2
        have hrkc : Function.update s3.rank ra' (s3.rank ra' + 1) rb'
            < Function.update s3.rank ra' (s3.rank ra' + 1) ra' := by
          rw [Function.update_same, Function.update_noteq (Ne.symm h12)]
          omega
        have hrkother : ∀ y, s3.parent y ≠ y →
            Function.update s3.rank ra' (s3.rank ra' + 1) y
              < Function.update s3.rank ra' (s3.rank ra' + 1) (s3.parent y) := by
          intro y hy
          have hya : y ≠ ra' := by
            intro hc
            subst hc
            exact hy hfixa
          rw [Function.update_noteq hya]
          by_cases hpya : s3.parent y = ra'
          · rw [hpya, Function.update_same]
            have := hInv3.2.2 y hy
            rw [hpya] at this
            omega
          · rw [Function.update_noteq hpya]
            exact hInv3.2.2 y hy
        obtain ⟨hInv4, hroots4⟩ := link_state_spec s3 hInv3 rb' ra' hfixb hfixa
          (Ne.symm h12) hrbdom hradom
          (Function.update s3.rank ra' (s3.rank ra' + 1)) hrk0 hrkc hrkother
        refine ⟨hInv4, s.rootOf a, Or.inl rfl, fun z => ?_⟩
        rw [hroots4 z, hroots3' z, hra, hrb]
        by_cases hz2 : s.rootOf z = s.rootOf b
        · rw [if_pos hz2, if_pos (Or.inr hz2)]
        · by_cases hz1 : s.rootOf z = s.rootOf a
          · rw [if_neg hz2, if_pos (Or.inl hz1)]
            exact hz1
          · rw [if_neg hz2, if_neg (not_or.mpr ⟨hz1, hz2⟩)]

/-! #### Processing a pair list computes the connected components -/

theorem eqvGen_imp {α : Type} {r q : α → α → Prop}
    (h : ∀ u v, r u v → Relation.EqvGen q u v) {x y : α}
    (hr : Relation.EqvGen r x y) : Relation.EqvGen q x y := by
  induction hr with
  | rel u v huv => exact h u v huv
  | refl u => exact Relation.EqvGen.refl u
  | symm u v _ ih => exact Relation.EqvGen.symm u v ih
  | trans u v w _ _ ih1 ih2 => exact Relation.EqvGen.trans u v w ih1 ih2

theorem eqvGen_congr {α : Type} {r q : α → α → Prop}
    (h : ∀ u v, r u v ↔ q u v) {x y : α} :
    Relation.EqvGen r x y ↔ Relation.EqvGen q x y :=
  ⟨eqvGen_imp fun u v hu => Relation.EqvGen.rel u v ((h u v).mp hu),
   eqvGen_imp fun u v hu => Relation.EqvGen.rel u v ((h u v).mpr hu)⟩

theorem union_rootEq_iff (s : UnionFind) (h : Inv s) (a b u v : ℤ) :
    ((s.union a b).rootOf u = (s.union a b).rootOf v) ↔
      (s.rootOf u = s.rootOf v ∨
        ((s.rootOf u = s.rootOf a ∨ s.rootOf u = s.rootOf b) ∧
         (s.rootOf v = s.rootOf a ∨ s.rootOf v = s.rootOf b))) := by
  obtain ⟨_, r, hr, hchar⟩ := union_spec s h a b
  rw [hchar u, hchar v]
  by_cases hu : s.rootOf u = s.rootOf a ∨ s.rootOf u = s.rootOf b
  · rw [if_pos hu]
    by_cases hv : s.rootOf v = s.rootOf a ∨ s.rootOf v = s.rootOf b
    · rw [if_pos hv]
      simp [hu, hv]
    · rw [if_neg hv]
      constructor
      · intro he
        exfalso
        apply hv
        rcases hr with hr | hr
        · exact Or.inl (by rw [← he, hr])
        · exact Or.inr (by rw [← he, hr])
      · rintro (he | ⟨_, hv'⟩)
        · exfalso
          apply hv
          rcases hu with h1 | h1
          · exact Or.inl (by rw [← he]; exact h1)
          · exact Or.inr (by rw [← he]; exact h1)
        · exact absurd hv' hv
  · rw [if_neg hu]
    by_cases hv : s.rootOf v = s.rootOf a ∨ s.rootOf v = s.rootOf b
    · rw [if_pos hv]
      constructor
      · intro he
        exfalso
        apply hu
        rcases hr with hr | hr
        · exact Or.inl (he.trans hr)
        · exact Or.inr (he.trans hr)
      · rintro (he | ⟨hu', _⟩)
        · exfalso
          apply hu
          rcases hv with h1 | h1
          · exact Or.inl (by rw [he]; exact h1)
          · exact Or.inr (by rw [he]; exact h1)
        · exact absurd hu' hu
    · rw [if_neg hv]
      constructor
      · exact fun he => Or.inl he
      · rintro (he | ⟨hu', _⟩)
        · exact he
        · exact absurd hu' hu

theorem foldl_union_inv (l : List (ℤ × ℤ)) (s : UnionFind) (hs : Inv s) :
    Inv (l.foldl (fun t ab => t.union ab.1 ab.2) s) := by
  induction l generalizing s with
  | nil => exact hs
  | cons ab t ih => exact ih _ (union_spec s hs ab.1 ab.2).1

theorem foldl_union_rootEq (l : List (ℤ × ℤ)) :
    ∀ (s : UnionFind), Inv s → ∀ x y : ℤ,
    ((l.foldl (fun t ab => t.union ab.1 ab.2) s).rootOf x =
     (l.foldl (fun t ab => t.union ab.1 ab.2) s).rootOf y) ↔
    Relation.EqvGen (fun u v => pairMem l u v ∨ s.rootOf u = s.rootOf v) x y := by
  induction l with
  | nil =>
    intro s hs x y
    simp only [List.foldl_nil]
    have hequiv : Equivalence (fun u v : ℤ => s.rootOf u = s.rootOf v) :=
      ⟨fun u => rfl, fun h => h.symm, fun h1 h2 => h1.trans h2⟩
    rw [eqvGen_congr (q := fun u v : ℤ => s.rootOf u = s.rootOf v)
      (fun u v => by simp [pairMem])]
    exact (hequiv.eqvGen_iff).symm
  | cons ab t ih =>
    intro s hs x y
    simp only [List.foldl_cons]
    obtain ⟨hInv', _⟩ := union_spec s hs ab.1 ab.2
    rw [ih (s.union ab.1 ab.2) hInv' x y]
    constructor
    · refine eqvGen_imp ?_
      rintro u v (hp | he)
      · exact Relation.EqvGen.rel u v (Or.inl (List.mem_cons_of_mem ab hp))
      · rw [union_rootEq_iff s hs ab.1 ab.2 u v] at he
        rcases he with he | ⟨hu, hv⟩
        · exact Relation.EqvGen.rel u v (Or.inr he)
        · have hconn : ∀ w : ℤ,
              (s.rootOf w = s.rootOf ab.1 ∨ s.rootOf w = s.rootOf ab.2) →
              Relation.EqvGen
                (fun u v => pairMem (ab :: t) u v ∨ s.rootOf u = s.rootOf v) w ab.1 := by
            intro w hw
            rcases hw with hw | hw
            · exact Relation.EqvGen.rel _ _ (Or.inr hw)
            · refine Relation.EqvGen.trans _ _ _
                (Relation.EqvGen.rel _ _ (Or.inr hw)) ?_
              refine Relation.EqvGen.symm _ _ (Relation.EqvGen.rel _ _ (Or.inl ?_))
              show (ab.1, ab.2) ∈ ab :: t
              simp
          exact Relation.EqvGen.trans _ _ _ (hconn u hu)
            (Relation.EqvGen.symm _ _ (hconn v hv))
    · refine eqvGen_imp ?_
      rintro u v (hp | he)
      · rcases List.mem_cons.mp hp with heq | hp'
        · have h1 : ab.1 = u := by rw [← heq]
          have h2 : ab.2 = v := by rw [← heq]
          refine Relation.EqvGen.rel u v (Or.inr ?_)
          rw [union_rootEq_iff s hs ab.1 ab.2 u v]
          exact Or.inr ⟨Or.inl (by rw [h1]), Or.inr (by rw [h2])⟩
        · exact Relation.EqvGen.rel u v (Or.inl hp')
      · refine Relation.EqvGen.rel u v (Or.inr ?_)
        rw [union_rootEq_iff s hs ab.1 ab.2 u v]
        exact Or.inl he

theorem empty_inv : Inv UnionFind.empty :=
  ⟨fun _ _ => ⟨rfl, rfl⟩, fun x hx => absurd hx (Finset.not_mem_empty x),
   fun _ hx => absurd rfl hx⟩

theorem empty_rootOf (x : ℤ) : UnionFind.empty.rootOf x = x :=
  rootOf_of_fix UnionFind.empty empty_inv rfl

theorem processPairs_rootEq (l : List (ℤ × ℤ)) (x y : ℤ) :
    (processPairs l).rootOf x = (processPairs l).rootOf y ↔
      Relation.EqvGen (fun u v => pairMem l u v ∨ u = v) x y := by
  rw [processPairs, foldl_union_rootEq l UnionFind.empty empty_inv x y]
  exact eqvGen_congr fun u v => or_congr Iff.rfl (by rw [empty_rootOf, empty_rootOf])

/-- C7: for the union-find structure: whenever a processed pair list
contains `(a,b)` and `(b,c)`, `find a` and `find c` return the same
representative; for every pair list the final partition is exactly the set
of connected components of the pair graph (`rootOf`-equality is the
equivalence closure of pair membership); and for every pair list,
processing any permutation of it yields the same final partition. -/
theorem unionfind_connects_and_order_independent (l l' : List (ℤ × ℤ)) :
    (∀ a b c : ℤ, (a, b) ∈ l → (b, c) ∈ l →
       (processPairs l).rootOf a = (processPairs l).rootOf c ∧
       ((processPairs l).find a).2 = ((processPairs l).find c).2) ∧
    (∀ x y : ℤ, (processPairs l).rootOf x = (processPairs l).rootOf y ↔
       Relation.EqvGen (fun u v => pairMem l u v ∨ u = v) x y) ∧
    (l.Perm l' → ∀ x y : ℤ,
       (processPairs l).rootOf x = (processPairs l).rootOf y ↔
       (processPairs l').rootOf x = (processPairs l').rootOf y) := by
  have hInv : Inv (processPairs l) := foldl_union_inv l _ empty_inv
  refine ⟨?_, ?_, ?_⟩
  · intro a b c hab hbc
    have hroot : (processPairs l).rootOf a = (processPairs l).rootOf c := by
      rw [processPairs_rootEq]
      exact Relation.EqvGen.trans _ _ _ (Relation.EqvGen.rel _ _ (Or.inl hab))
        (Relation.EqvGen.rel _ _ (Or.inl hbc))
    refine ⟨hroot, ?_⟩
    obtain ⟨_, _, _, _, hfa⟩ := find_spec (processPairs l) hInv a
    obtain ⟨_, _, _, _, hfc⟩ := find_spec (processPairs l) hInv c
    rw [hfa, hfc, hroot]
  · intro x y
    exact processPairs_rootEq l x y
  · intro hperm x y
    rw [processPairs_rootEq, processPairs_rootEq]
    exact eqvGen_congr fun u v => or_congr hperm.mem_iff Iff.rfl

theorem unionfind_connects_witness :
    (((1 : ℤ), (2 : ℤ)) ∈ [((1 : ℤ), (2 : ℤ)), (2, 3)] ∧
     ((2 : ℤ), (3 : ℤ)) ∈ [((1 : ℤ), (2 : ℤ)), (2, 3)] ∧
     List.Perm [((1 : ℤ), (2 : ℤ)), (2, 3)] [((2 : ℤ), (3 : ℤ)), (1, 2)]) ∧
    (processPairs [((1 : ℤ), (2 : ℤ)), (2, 3)]).rootOf 1
      = (processPairs [((1 : ℤ), (2 : ℤ)), (2, 3)]).rootOf 3 ∧
    ((processPairs [((1 : ℤ), (2 : ℤ)), (2, 3)]).rootOf 1
        = (processPairs [((1 : ℤ), (2 : ℤ)), (2, 3)]).rootOf 3 ↔
     (processPairs [((2 : ℤ), (3 : ℤ)), (1, 2)]).rootOf 1
        = (processPairs [((2 : ℤ), (3 : ℤ)), (1, 2)]).rootOf 3) := by
  have h1 : ((1 : ℤ), (2 : ℤ)) ∈ [((1 : ℤ), (2 : ℤ)), (2, 3)] := by decide
  have h2 : ((2 : ℤ), (3 : ℤ)) ∈ [((1 : ℤ), (2 : ℤ)), (2, 3)] := by decide
  have h3 : List.Perm [((1 : ℤ), (2 : ℤ)), (2, 3)] [((2 : ℤ), (3 : ℤ)), (1, 2)] := by
    decide
  obtain ⟨hconn, _, hord⟩ := unionfind_connects_and_order_independent
    [((1 : ℤ), (2 : ℤ)), (2, 3)] [((2 : ℤ), (3 : ℤ)), (1, 2)]
  exact ⟨⟨h1, h2, h3⟩, (hconn 1 2 3 h1 h2).1, hord h3 1 3⟩

/-! ### System grouping, the coverage gate and canonical selection
(ingest_core.py lines 666-675, 928-1030 and 1033-1092)

`system_groups` is `name_groups` unioned with either `prox_groups`
(proximity enabled) or the `solo:` rows, and the gate aborts when the
membership count differs from the star count or any star is in two groups.
`prox_roots` holds one `(star_id, root_id)` row per union-find key, so it is
embedded as a partial map `g`; `prox_roots_full` coalesces it with the
identity over the ungrouped stars. -/

/-- The columns of one `stars` row read by grouping and selection. -/
structure GStar where
  star_id : ℤ
  stable_object_key : String
  vmag : Option ℚ
  system_name_root_norm : Option String
deriving DecidableEq

/-- `name_groups`: `'name:' || system_name_root_norm` for every star whose
normalized root is non-null. -/
def nameGroups (stars : List GStar) : List (ℤ × String) :=
  (stars.filter fun s => s.system_name_root_norm.isSome).map
    fun s => (s.star_id, "name:" ++ s.system_name_root_norm.getD "")

/-- The `solo:` branch of `system_groups` (proximity disabled). -/
def soloGroups (stars : List GStar) : List (ℤ × String) :=
  (stars.filter fun s => s.system_name_root_norm.isNone).map
    fun s => (s.star_id, "solo:" ++ s.stable_object_key)

/-- The stars feeding `prox_roots_full`: `where system_name_root_norm is null`. -/
def ungroupedStars (stars : List GStar) : List GStar :=
  stars.filter fun s => s.system_name_root_norm.isNone

/-- `coalesce(p.root_id, u.star_id)` over the `prox_roots` map. -/
def rootFull (g : ℤ → Option ℤ) (i : ℤ) : ℤ := (g i).getD i

/-- SQL `order by vmag asc nulls last`, strict part. -/
def vmagLt : Option ℚ → Option ℚ → Bool
  | some u, some v => u < v
  | some _, none => true
  | none, _ => false

/-- The ORDER BY of `prox_primary`:
`vmag asc nulls last, stable_object_key asc, star_id asc`, strict part. -/
def rankLt (s t : GStar) : Bool :=
  vmagLt s.vmag t.vmag ||
    (decide (s.vmag = t.vmag) &&
      (decide (s.stable_object_key < t.stable_object_key) ||
        (decide (s.stable_object_key = t.stable_object_key) &&
          decide (s.star_id < t.star_id))))

/-- The ORDER BY of the systems `primary_star` CTE:
`vmag asc nulls last, stable_object_key asc`, strict part. -/
def rank2Lt (s t : GStar) : Bool :=
  vmagLt s.vmag t.vmag ||
    (decide (s.vmag = t.vmag) && decide (s.stable_object_key < t.stable_object_key))

/-- The first row of a partition in the given strict order (`row_number()
... = 1`): a left fold keeping the earliest minimal element. -/
def foldMin (lt : GStar → GStar → Bool) (l : List GStar) : Option GStar :=
  l.foldl (fun acc x =>
    match acc with
    | none => some x
    | some u => if lt x u then some x else acc) none

/-- The `rn = 1` row of `prox_primary` for one root partition. -/
def argminRank (l : List GStar) : Option GStar := foldMin rankLt l

/-- The `rn = 1` row of the systems `primary_star` CTE for one group. -/
def primaryStar (members : List GStar) : Option GStar := foldMin rank2Lt members

/-- The members of one `prox_roots_full` partition. -/
def membersOfRoot (stars : List GStar) (g : ℤ → Option ℤ) (r : ℤ) : List GStar :=
  (ungroupedStars stars).filter fun s => rootFull g s.star_id == r

/-- `prox_primary`: one `(root_id, stable_object_key)` row per distinct root,
carrying the key of the partition's first row. -/
def proxPrimary (stars : List GStar) (g : ℤ → Option ℤ) : List (ℤ × String) :=
  (((ungroupedStars stars).map fun s => rootFull g s.star_id).dedup).map
    fun r => (r, ((argminRank (membersOfRoot stars g r)).map
        fun s => s.stable_object_key).getD "")

/-- `prox_groups`: `prox_roots_full` joined with `prox_primary` on the root. -/
def proxGroups (stars : List GStar) (g : ℤ → Option ℤ) : List (ℤ × String) :=
  (ungroupedStars stars).flatMap fun s =>
    (proxPrimary stars g).filterMap fun rk =>
      if rk.1 = rootFull g s.star_id then some (s.star_id, "prox:" ++ rk.2) else none

/-- `system_groups`: name rows plus prox rows when proximity is enabled,
name rows plus solo rows otherwise. -/
def systemGroups (proximityEnabled : Bool) (stars : List GStar)
    (g : ℤ → Option ℤ) : List (ℤ × String) :=
  if proximityEnabled then nameGroups stars ++ proxGroups stars g
  else nameGroups stars ++ soloGroups stars

/-- `select count(*) from (select star_id, count(*) as cnt from system_groups
group by star_id having cnt > 1)`. -/
def dupeCount (rows : List (ℤ × String)) : ℕ :=
  (((rows.map Prod.fst).dedup).filter
    fun i => 1 < rows.countP fun row => row.1 == i).length

/-- The coverage gate:
`if grouped != total or dupes != 0: raise SystemExit(...)`. -/
def coverageGate (total grouped dupes : ℕ) : Except String Unit :=
  if grouped ≠ total ∨ dupes ≠ 0 then Except.error "System grouping failed"
  else Except.ok ()

/-! #### The `rn = 1` row is minimal in the configured order -/

theorem vmagLt_trans {a b c : Option ℚ} (h1 : vmagLt a b = true)
    (h2 : vmagLt b c = true) : vmagLt a c = true := by
  cases a <;> cases b <;> cases c <;>
    simp only [vmagLt, decide_eq_true_eq] at h1 h2 ⊢ <;>
    first
      | trivial
      | exact lt_trans h1 h2

theorem vmagLt_irrefl (a : Option ℚ) : vmagLt a a = false := by
  cases a <;> simp [vmagLt]

theorem vmagLt_eq_of_not {a b : Option ℚ} (h1 : vmagLt a b = false)
    (h2 : vmagLt b a = false) : a = b := by
  cases a <;> cases b <;>
    simp only [vmagLt, decide_eq_false_iff_not] at h1 h2 ⊢ <;>
    first
      | trivial
      | exact congrArg some (le_antisymm (not_lt.mp h2) (not_lt.mp h1))

theorem foldMin_spec (lt : GStar → GStar → Bool)
    (htrans : ∀ a b c, lt a b = true → lt b c = true → lt a c = true)
    (hirr : ∀ a, lt a a = false)
    (hrepl : ∀ a b, lt a b = false → lt b a = true ∨ (∀ c, lt a c = lt b c)) :
    ∀ (l : List GStar) (t : GStar),
      ∃ s, l.foldl (fun acc x => match acc with
          | none => some x
          | some u => if lt x u then some x else acc) (some t) = some s ∧
        (s = t ∨ s ∈ l) ∧ ∀ m, (m = t ∨ m ∈ l) → lt m s = false := by
  intro l
  induction l with
  | nil =>
    intro t
    refine ⟨t, rfl, Or.inl rfl, fun m hm => ?_⟩
    rcases hm with rfl | hm
    · exact hirr m
    · exact absurd hm (List.not_mem_nil m)
  | cons s0 rest ih =>
    intro t
    simp only [List.foldl_cons]
    by_cases h0 : lt s0 t = true
    · rw [if_pos h0]
      obtain ⟨s, heq, hmem, hmin⟩ := ih s0
      refine ⟨s, heq, ?_, ?_⟩
      · rcases hmem with rfl | hmem
        · exact Or.inr (List.mem_cons_self _ _)
        · exact Or.inr (List.mem_cons_of_mem _ hmem)
      · intro m hm
        rcases hm with rfl | hm
        · by_contra hts
          rw [Bool.not_eq_false] at hts
          have hc1 : lt s0 s = true := htrans _ _ _ h0 hts
          have hc2 : lt s0 s = false := hmin s0 (Or.inl rfl)
          rw [hc1] at hc2
          exact absurd hc2 (by simp)
        · rcases List.mem_cons.mp hm with rfl | hm'
          · exact hmin m (Or.inl rfl)
          · exact hmin m (Or.inr hm')
    · rw [if_neg h0]
      obtain ⟨s, heq, hmem, hmin⟩ := ih t
      refine ⟨s, heq, ?_, ?_⟩
      · rcases hmem with rfl | hmem
        · exact Or.inl rfl
        · exact Or.inr (List.mem_cons_of_mem _ hmem)
      · intro m hm
        rcases hm with rfl | hm
        · exact hmin m (Or.inl rfl)
        · rcases List.mem_cons.mp hm with rfl | hm'
          · have h0' : lt m t = false := by
              rwa [← Bool.not_eq_true]
            rcases hrepl m t h0' with hts | hcong
            · by_contra hms
              rw [Bool.not_eq_false] at hms
              have hc1 : lt t s = true := htrans _ _ _ hts hms
              have hc2 : lt t s = false := hmin t (Or.inl rfl)
              rw [hc1] at hc2
              exact absurd hc2 (by simp)
            · rw [hcong s]
              exact hmin t (Or.inl rfl)
          · exact hmin m (Or.inr hm')

theorem rank2Lt_trans (a b c : GStar) (h1 : rank2Lt a b = true)
    (h2 : rank2Lt b c = true) : rank2Lt a c = true := by
  simp only [rank2Lt, Bool.or_eq_true, Bool.and_eq_true, decide_eq_true_eq] at h1 h2 ⊢
  rcases h1 with h1 | ⟨e1, k1⟩
  · rcases h2 with h2 | ⟨e2, k2⟩
    · exact Or.inl (vmagLt_trans h1 h2)
    · exact Or.inl (e2 ▸ h1)
  · rcases h2 with h2 | ⟨e2, k2⟩
    · exact Or.inl (by rw [e1]; exact h2)
    · exact Or.inr ⟨e1.trans e2, lt_trans k1 k2⟩

theorem rank2Lt_irrefl (a : GStar) : rank2Lt a a = false := by
  simp [rank2Lt, vmagLt_irrefl, lt_irrefl]

theorem rank2Lt_repl (a b : GStar) (h : rank2Lt a b = false) :
    rank2Lt b a = true ∨ (∀ c, rank2Lt a c = rank2Lt b c) := by
  simp only [rank2Lt, Bool.or_eq_false_iff, Bool.and_eq_false_iff,
    decide_eq_false_iff_not] at h
  obtain ⟨hv, hk⟩ := h
  by_cases hvb : vmagLt b.vmag a.vmag = true
  · left
    simp only [rank2Lt, Bool.or_eq_true]
    exact Or.inl hvb
  · have heq : a.vmag = b.vmag :=
      vmagLt_eq_of_not hv (by rwa [← Bool.not_eq_true])
    have hkk : ¬ a.stable_object_key < b.stable_object_key := by
      rcases hk with hk | hk
      · exact absurd heq hk
      · exact hk
    rcases lt_trichotomy b.stable_object_key a.stable_object_key with hlt | heqk | hgt
    · left
      simp only [rank2Lt, Bool.or_eq_true, Bool.and_eq_true, decide_eq_true_eq]
      exact Or.inr ⟨heq.symm, hlt⟩
    · right
      intro c
      simp only [rank2Lt, heq, ← heqk]
    · exact absurd hgt hkk

theorem rankLt_trans (a b c : GStar) (h1 : rankLt a b = true)
    (h2 : rankLt b c = true) : rankLt a c = true := by
  simp only [rankLt, Bool.or_eq_true, Bool.and_eq_true, decide_eq_true_eq] at h1 h2 ⊢
  rcases h1 with h1 | ⟨e1, k1⟩
  · rcases h2 with h2 | ⟨e2, k2⟩
    · exact Or.inl (vmagLt_trans h1 h2)
    · exact Or.inl (e2 ▸ h1)
  · rcases h2 with h2 | ⟨e2, k2⟩
    · exact Or.inl (by rw [e1]; exact h2)
    · refine Or.inr ⟨e1.trans e2, ?_⟩
      rcases k1 with k1 | ⟨ek1, i1⟩
      · rcases k2 with k2 | ⟨ek2, i2⟩
        · exact Or.inl (lt_trans k1 k2)
        · exact Or.inl (ek2 ▸ k1)
      · rcases k2 with k2 | ⟨ek2, i2⟩
        · exact Or.inl (by rw [ek1]; exact k2)
        · exact Or.inr ⟨ek1.trans ek2, lt_trans i1 i2⟩

theorem rankLt_irrefl (a : GStar) : rankLt a a = false := by
  simp [rankLt, vmagLt_irrefl, lt_irrefl]

theorem rankLt_repl (a b : GStar) (h : rankLt a b = false) :
    rankLt b a = true ∨ (∀ c, rankLt a c = rankLt b c) := by
  simp only [rankLt, Bool.or_eq_false_iff, Bool.and_eq_false_iff,
    decide_eq_false_iff_not] at h
  obtain ⟨hv, hk⟩ := h
  by_cases hvb : vmagLt b.vmag a.vmag = true
  · left
    simp only [rankLt, Bool.or_eq_true]
    exact Or.inl hvb
  · have heq : a.vmag = b.vmag :=
      vmagLt_eq_of_not hv (by rwa [← Bool.not_eq_true])
    have hrest : ¬ (a.stable_object_key < b.stable_object_key ∨
        (a.stable_object_key = b.stable_object_key ∧ a.star_id < b.star_id)) := by
      rcases hk with hk | hk
      · exact absurd heq hk
      · rintro (hc | ⟨hc1, hc2⟩)
        · exact hk.1 hc
        · rcases hk.2 with h2 | h2
          · exact h2 hc1
          · exact h2 hc2
    rcases lt_trichotomy b.stable_object_key a.stable_object_key with hlt | heqk | hgt
    · left
      simp only [rankLt, Bool.or_eq_true, Bool.and_eq_true, decide_eq_true_eq]
      exact Or.inr ⟨heq.symm, Or.inl hlt⟩
    · rcases lt_trichotomy b.star_id a.star_id with hilt | heqi | higt
      · left
        simp only [rankLt, Bool.or_eq_true, Bool.and_eq_true, decide_eq_true_eq]
        exact Or.inr ⟨heq.symm, Or.inr ⟨heqk, hilt⟩⟩
      · right
        intro c
        simp only [rankLt, heq, ← heqk, ← heqi]
      · exact absurd (Or.inr ⟨heqk.symm, higt⟩) hrest
    · exact absurd (Or.inl hgt) hrest

/-- C6: for every non-empty group, whichever pass produced it, the `rn = 1`
row chosen as the group's canonical representative is a member that is
minimal in the configured order: no member has a strictly smaller
`vmag`-rank (nulls last), and among members tying on `vmag` its stable
object key is not beaten.  The same holds for the `prox_primary` selection
(which additionally tie-breaks on `star_id`). -/
theorem canonical_selection_minimal (members : List GStar) (hne : members ≠ []) :
    (∃ s, primaryStar members = some s ∧ s ∈ members ∧
      (∀ m ∈ members, rank2Lt m s = false) ∧
      (∀ m ∈ members, vmagLt m.vmag s.vmag = false) ∧
      (∀ m ∈ members, m.vmag = s.vmag →
        ¬ (m.stable_object_key < s.stable_object_key))) ∧
    (∃ s, argminRank members = some s ∧ s ∈ members ∧
      (∀ m ∈ members, rankLt m s = false)) := by
  rcases members with _ | ⟨m0, rest⟩
  · exact absurd rfl hne
  constructor
  · obtain ⟨s, heq, hmem, hmin⟩ :=
      foldMin_spec rank2Lt rank2Lt_trans rank2Lt_irrefl rank2Lt_repl rest m0
    have hmem' : s ∈ m0 :: rest := by
      rcases hmem with rfl | hmem
      · exact List.mem_cons_self _ _
      · exact List.mem_cons_of_mem _ hmem
    have hmin' : ∀ m ∈ m0 :: rest, rank2Lt m s = false := by
      intro m hm
      rcases List.mem_cons.mp hm with rfl | hm'
      · exact hmin m (Or.inl rfl)
      · exact hmin m (Or.inr hm')
    refine ⟨s, heq, hmem', hmin', ?_, ?_⟩
    · intro m hm
      have hf := hmin' m hm
      simp only [rank2Lt, Bool.or_eq_false_iff] at hf
      exact hf.1
    · intro m hm hv
      have hf := hmin' m hm
      simp only [rank2Lt, Bool.or_eq_false_iff, Bool.and_eq_false_iff,
        decide_eq_false_iff_not] at hf
      rcases hf.2 with h2 | h2
      · exact absurd hv h2
      · exact h2
  · obtain ⟨s, heq, hmem, hmin⟩ :=
      foldMin_spec rankLt rankLt_trans rankLt_irrefl rankLt_repl rest m0
    have hmem' : s ∈ m0 :: rest := by
      rcases hmem with rfl | hmem
      · exact List.mem_cons_self _ _
      · exact List.mem_cons_of_mem _ hmem
    refine ⟨s, heq, hmem', ?_⟩
    intro m hm
    rcases List.mem_cons.mp hm with rfl | hm'
    · exact hmin m (Or.inl rfl)
    · exact hmin m (Or.inr hm')

theorem canonical_selection_minimal_witness :
    ([⟨1, "star:hip:1", some 2, none⟩,
      ⟨2, "star:hip:2", some 1, none⟩] : List GStar) ≠ [] ∧
    (∃ s, primaryStar [⟨1, "star:hip:1", some 2, none⟩,
        ⟨2, "star:hip:2", some 1, none⟩] = some s ∧
      s ∈ ([⟨1, "star:hip:1", some 2, none⟩,
        ⟨2, "star:hip:2", some 1, none⟩] : List GStar) ∧
      (∀ m ∈ ([⟨1, "star:hip:1", some 2, none⟩,
        ⟨2, "star:hip:2", some 1, none⟩] : List GStar),
        vmagLt m.vmag s.vmag = false)) := by
  have hne : ([⟨1, "star:hip:1", some 2, none⟩,
      ⟨2, "star:hip:2", some 1, none⟩] : List GStar) ≠ [] := by
    simp
  obtain ⟨⟨s, h1, h2, _, h4, _⟩, _⟩ := canonical_selection_minimal
    [⟨1, "star:hip:1", some 2, none⟩, ⟨2, "star:hip:2", some 1, none⟩] hne
  exact ⟨hne, s, h1, h2, h4⟩

/-! #### Coverage: every star lands in exactly one group -/

theorem filterMap_if_nil {β : Type} (l : List ℤ) (r : ℤ) (hr : r ∉ l) (f : ℤ → β) :
    (l.filterMap fun x => if x = r then some (f x) else none) = [] := by
  induction l with
  | nil => rfl
  | cons x rest ih =>
    have hxr : x ≠ r := fun hc => hr (hc ▸ List.mem_cons_self x rest)
    have hrr : r ∉ rest := fun hc => hr (List.mem_cons_of_mem x hc)
    simp only [List.filterMap_cons, if_neg hxr]
    exact ih hrr

theorem filterMap_if_singleton {β : Type} (l : List ℤ) (hl : l.Nodup) (r : ℤ)
    (hr : r ∈ l) (f : ℤ → β) :
    (l.filterMap fun x => if x = r then some (f x) else none) = [f r] := by
  induction l with
  | nil => exact absurd hr (List.not_mem_nil r)
  | cons x rest ih =>
    obtain ⟨hxnotin, hrest⟩ := List.nodup_cons.mp hl
    by_cases hxr : x = r
    · subst hxr
      simp [List.filterMap_cons, filterMap_if_nil rest x hxnotin f]
    · have hrr : r ∈ rest := by
        rcases List.mem_cons.mp hr with rfl | hm
        · exact absurd rfl hxr
        · exact hm
      simp only [List.filterMap_cons, if_neg hxr]
      exact ih hrest hrr

theorem flatMap_singleton_eq_map {α β : Type} (l : List α) (f : α → List β)
    (g' : α → β) (h : ∀ a ∈ l, f a = [g' a]) : l.flatMap f = l.map g' := by
  induction l with
  | nil => rfl
  | cons x rest ih =>
    rw [List.flatMap_cons, List.map_cons, h x (List.mem_cons_self x rest),
      ih fun a ha => h a (List.mem_cons_of_mem x ha)]
    rfl

theorem proxGroups_eq_map (stars : List GStar) (g : ℤ → Option ℤ) :
    proxGroups stars g = (ungroupedStars stars).map fun s =>
      (s.star_id, "prox:" ++ ((argminRank (membersOfRoot stars g
          (rootFull g s.star_id))).map fun t => t.stable_object_key).getD "") := by
  unfold proxGroups
  apply flatMap_singleton_eq_map
  intro s hs
  unfold proxPrimary
  rw [List.filterMap_map]
  have hmem : rootFull g s.star_id ∈
      ((ungroupedStars stars).map fun t => rootFull g t.star_id).dedup :=
    List.mem_dedup.mpr (List.mem_map_of_mem _ hs)
  exact filterMap_if_singleton _ (List.nodup_dedup _) _ hmem
    (fun r => (s.star_id, "prox:" ++ ((argminRank (membersOfRoot stars g r)).map
        fun t => t.stable_object_key).getD ""))

theorem filter_root_split_length (stars : List GStar) :
    (stars.filter fun s => s.system_name_root_norm.isSome).length +
    (stars.filter fun s => s.system_name_root_norm.isNone).length = stars.length := by
  induction stars with
  | nil => rfl
  | cons t rest ih =>
    cases h : t.system_name_root_norm <;> simp [List.filter_cons, h] <;> omega

theorem countP_id_nodup (stars : List GStar)
    (hids : (stars.map GStar.star_id).Nodup) (s : GStar) (hs : s ∈ stars)
    (f : GStar → Bool) :
    (stars.countP fun t => (t.star_id == s.star_id) && f t)
      = if f s then 1 else 0 := by
  induction stars with
  | nil => exact absurd hs (List.not_mem_nil s)
  | cons t rest ih =>
    rw [List.map_cons] at hids
    obtain ⟨htnotin, hrest⟩ := List.nodup_cons.mp hids
    rw [List.countP_cons]
    rcases List.mem_cons.mp hs with rfl | hsrest
    · have hzero : (rest.countP fun t => (t.star_id == s.star_id) && f t) = 0 := by
        rw [List.countP_eq_zero]
        intro u hu hcon
        simp only [Bool.and_eq_true, beq_iff_eq] at hcon
        exact htnotin (hcon.1 ▸ List.mem_map_of_mem GStar.star_id hu)
      rw [hzero]
      simp
    · have hne : t.star_id ≠ s.star_id := by
        intro hc
        exact htnotin (hc ▸ List.mem_map_of_mem GStar.star_id hsrest)
      have hhead : ((t.star_id == s.star_id) && f t) = false := by
        simp [hne]
      rw [hhead, ih hrest hsrest]
      simp

theorem countP_id_over_rows (stars : List GStar)
    (hids : (stars.map GStar.star_id).Nodup) (s : GStar) (hs : s ∈ stars)
    (p : GStar → Bool) (val : GStar → ℤ × String) (hval : ∀ t, (val t).1 = t.star_id) :
    (((stars.filter p).map val).countP fun row => row.1 == s.star_id)
      = if p s then 1 else 0 := by
  rw [List.countP_map, List.countP_filter]
  have hcongr : (stars.countP fun t =>
      ((fun row : ℤ × String => row.1 == s.star_id) ∘ val) t && p t)
      = stars.countP fun t => (t.star_id == s.star_id) && p t := by
    apply List.countP_congr
    intro t ht
    simp [Function.comp, hval t]
  rw [hcongr, countP_id_nodup stars hids s hs p]

/-- C4: after grouping, whether proximity is enabled or not and whatever the
union-find produced, every star belongs to exactly one group key: the number
of (star, group) membership rows equals the number of stars, no star id
appears under two rows, and the coverage gate passes, while any count
mismatch makes the gate abort. -/
theorem grouping_coverage (proximityEnabled : Bool) (stars : List GStar)
    (g : ℤ → Option ℤ) (hids : (stars.map GStar.star_id).Nodup) :
    (systemGroups proximityEnabled stars g).length = stars.length ∧
    (∀ s ∈ stars, ((systemGroups proximityEnabled stars g).countP
        fun row => row.1 == s.star_id) = 1) ∧
    dupeCount (systemGroups proximityEnabled stars g) = 0 ∧
    coverageGate stars.length (systemGroups proximityEnabled stars g).length
      (dupeCount (systemGroups proximityEnabled stars g)) = Except.ok () ∧
    (∀ total grouped dupes : ℕ,
      coverageGate total grouped dupes = Except.ok () ↔
        (grouped = total ∧ dupes = 0)) := by
  have hgate : ∀ total grouped dupes : ℕ,
      coverageGate total grouped dupes = Except.ok () ↔
        (grouped = total ∧ dupes = 0) := by
    intro total grouped dupes
    unfold coverageGate
    by_cases hcond : grouped ≠ total ∨ dupes ≠ 0
    · rw [if_pos hcond]
      constructor
      · intro hcontra
        exact absurd hcontra (by simp)
      · intro ⟨h1, h2⟩
        rcases hcond with hc | hc
        · exact absurd h1 hc
        · exact absurd h2 hc
    · rw [if_neg hcond]
      push_neg at hcond
      exact ⟨fun _ => hcond, fun _ => rfl⟩
  have hsecond : systemGroups proximityEnabled stars g
      = nameGroups stars ++ (if proximityEnabled then proxGroups stars g
        else soloGroups stars) := by
    unfold systemGroups
    by_cases hp : proximityEnabled = true
    · rw [if_pos hp, if_pos hp]
    · rw [if_neg hp, if_neg hp]
  have hlen : (systemGroups proximityEnabled stars g).length = stars.length := by
    rw [hsecond, List.length_append]
    have hname : (nameGroups stars).length
        = (stars.filter fun s => s.system_name_root_norm.isSome).length := by
      unfold nameGroups
      rw [List.length_map]
    have hsolo : (soloGroups stars).length
        = (stars.filter fun s => s.system_name_root_norm.isNone).length := by
      unfold soloGroups
      rw [List.length_map]
    have hprox : (proxGroups stars g).length
        = (stars.filter fun s => s.system_name_root_norm.isNone).length := by
      rw [proxGroups_eq_map, List.length_map]
      rfl
    by_cases hp : proximityEnabled = true
    · rw [if_pos hp, hname, hprox, filter_root_split_length]
    · rw [if_neg hp, hname, hsolo, filter_root_split_length]
  have hone : ∀ s ∈ stars, ((systemGroups proximityEnabled stars g).countP
      fun row => row.1 == s.star_id) = 1 := by
    intro s hs
    rw [hsecond, List.countP_append]
    have hname : ((nameGroups stars).countP fun row => row.1 == s.star_id)
        = if s.system_name_root_norm.isSome then 1 else 0 :=
      countP_id_over_rows stars hids s hs _ _ fun t => rfl
    have hsolo : ((soloGroups stars).countP fun row => row.1 == s.star_id)
        = if s.system_name_root_norm.isNone then 1 else 0 :=
      countP_id_over_rows stars hids s hs _ _ fun t => rfl
    have hprox : ((proxGroups stars g).countP fun row => row.1 == s.star_id)
        = if s.system_name_root_norm.isNone then 1 else 0 := by
      rw [proxGroups_eq_map]
      exact countP_id_over_rows stars hids s hs _ _ fun t => rfl
    by_cases hp : proximityEnabled = true
    · rw [hp, if_pos rfl, hname, hprox]
      cases s.system_name_root_norm <;> simp
    · rw [if_neg hp, hname, hsolo]
      cases s.system_name_root_norm <;> simp
  have hdupe : dupeCount (systemGroups proximityEnabled stars g) = 0 := by
    unfold dupeCount
    rw [List.length_eq_zero, List.filter_eq_nil_iff]
    intro i hi
    have hi' : i ∈ (systemGroups proximityEnabled stars g).map Prod.fst :=
      List.mem_dedup.mp hi
    obtain ⟨row, hrow, hfst⟩ := List.mem_map.mp hi'
    have hexists : ∃ s ∈ stars, row.1 = s.star_id := by
      rw [hsecond] at hrow
      rcases List.mem_append.mp hrow with hrow | hrow
      · unfold nameGroups at hrow
        obtain ⟨t, ht, hteq⟩ := List.mem_map.mp hrow
        exact ⟨t, List.mem_of_mem_filter ht, by rw [← hteq]⟩
      · by_cases hp : proximityEnabled = true
        · rw [if_pos hp, proxGroups_eq_map] at hrow
          obtain ⟨t, ht, hteq⟩ := List.mem_map.mp hrow
          exact ⟨t, List.mem_of_mem_filter ht, by rw [← hteq]⟩
        · rw [if_neg hp] at hrow
          unfold soloGroups at hrow
          obtain ⟨t, ht, hteq⟩ := List.mem_map.mp hrow
          exact ⟨t, List.mem_of_mem_filter ht, by rw [← hteq]⟩
    obtain ⟨s, hsmem, hsid⟩ := hexists
    have hcount := hone s hsmem
    rw [← hfst, hsid, hcount]
    simp
  refine ⟨hlen, hone, hdupe, ?_, hgate⟩
  rw [(hgate _ _ _).mpr ⟨hlen, hdupe⟩]

theorem grouping_coverage_witness :
    ((([⟨1, "star:hip:1", some 2, some "alpha"⟩,
        ⟨2, "star:hip:2", some 1, none⟩] : List GStar).map GStar.star_id).Nodup) ∧
    (systemGroups true [⟨1, "star:hip:1", some 2, some "alpha"⟩,
        ⟨2, "star:hip:2", some 1, none⟩] (fun _ => none)).length = 2 ∧
    dupeCount (systemGroups true [⟨1, "star:hip:1", some 2, some "alpha"⟩,
        ⟨2, "star:hip:2", some 1, none⟩] (fun _ => none)) = 0 := by
  have hids : ((([⟨1, "star:hip:1", some 2, some "alpha"⟩,
      ⟨2, "star:hip:2", some 1, none⟩] : List GStar).map GStar.star_id).Nodup) := by
    simp
  obtain ⟨hlen, _, hdupe, _, _⟩ := grouping_coverage true
    [⟨1, "star:hip:1", some 2, some "alpha"⟩, ⟨2, "star:hip:2", some 1, none⟩]
    (fun _ => none) hids
  exact ⟨hids, hlen, hdupe⟩

/-! ### Grid-based proximity joiner: preflight estimate and batched join
(ingest_core.py lines 698-926)

Ungrouped stars are binned into cells of a configured side length.  The
preflight computes the exact intra-cell pair count and a halved neighbor
upper bound; the batched join emits each pair `(a, b)` with
`a.star_id < b.star_id`, `b`'s cell equal to `a`'s cell plus one of the 27
neighbor offsets, and squared Euclidean distance at most the threshold
squared.  Every non-empty cell lies in exactly one batch and the offset is
determined by the two cells, so over the whole run the join's output is the
set below (rows are distinct because `star_id` is unique). -/

structure PStar where
  star_id : ℤ
  x : ℚ
  y : ℚ
  z : ℚ
deriving DecidableEq

abbrev Cell := ℤ × ℤ × ℤ

/-- `cast(floor(coord / cell_size) as bigint)` per axis. -/
def cellOf (cellSize : ℚ) (s : PStar) : Cell :=
  (⌊s.x / cellSize⌋, ⌊s.y / cellSize⌋, ⌊s.z / cellSize⌋)

/-- The `neighbor_offsets` table (27 rows). -/
def neighborOffsets : Finset Cell :=
  {(-1, -1, -1), (-1, -1, 0), (-1, -1, 1), (-1, 0, -1), (-1, 0, 0), (-1, 0, 1),
   (-1, 1, -1), (-1, 1, 0), (-1, 1, 1), (0, -1, -1), (0, -1, 0), (0, -1, 1),
   (0, 0, -1), (0, 0, 0), (0, 0, 1), (0, 1, -1), (0, 1, 0), (0, 1, 1),
   (1, -1, -1), (1, -1, 0), (1, -1, 1), (1, 0, -1), (1, 0, 0), (1, 0, 1),
   (1, 1, -1), (1, 1, 0), (1, 1, 1)}

/-- The squared distance exactly as the join's WHERE clause computes it. -/
def dist2 (a b : PStar) : ℚ :=
  (a.x - b.x) * (a.x - b.x) + (a.y - b.y) * (a.y - b.y) + (a.z - b.z) * (a.z - b.z)

/-- All pairs emitted by the batched pairing loop over the whole run. -/
def emittedPairs (U : Finset PStar) (cellSize r2 : ℚ) : Finset (PStar × PStar) :=
  (U ×ˢ U).filter fun p =>
    p.1.star_id < p.2.star_id ∧
    (cellOf cellSize p.2 - cellOf cellSize p.1) ∈ neighborOffsets ∧
    dist2 p.1 p.2 ≤ r2

/-- `cell_counts[c]`. -/
def cellPop (U : Finset PStar) (cellSize : ℚ) (c : Cell) : ℕ :=
  (U.filter fun s => cellOf cellSize s = c).card

/-- The non-empty cells (the keys of `cell_counts`). -/
def occupiedCells (U : Finset PStar) (cellSize : ℚ) : Finset Cell :=
  U.image (cellOf cellSize)

/-- `intra_pairs += cnt * (cnt - 1) // 2` over non-empty cells. -/
def intraPairs (U : Finset PStar) (cellSize : ℚ) : ℕ :=
  ∑ c ∈ occupiedCells U cellSize,
    cellPop U cellSize c * (cellPop U cellSize c - 1) / 2

/-- `neighbor_sum`: the population of a cell's 27-cell neighborhood. -/
def neighborSum (U : Finset PStar) (cellSize : ℚ) (c : Cell) : ℕ :=
  ∑ o ∈ neighborOffsets, cellPop U cellSize (c + o)

/-- `neighbor_upper_raw += cnt * max(neighbor_sum - 1, 0)`. -/
def neighborUpperRaw (U : Finset PStar) (cellSize : ℚ) : ℕ :=
  ∑ c ∈ occupiedCells U cellSize,
    cellPop U cellSize c * max (neighborSum U cellSize c - 1) 0

/-- `neighbor_upper = neighbor_upper_raw // 2`. -/
def neighborUpper (U : Finset PStar) (cellSize : ℚ) : ℕ :=
  neighborUpperRaw U cellSize / 2

/-- `estimate_pairs = max(intra_pairs, neighbor_upper)`. -/
def estimatePairs (U : Finset PStar) (cellSize : ℚ) : ℕ :=
  max (intraPairs U cellSize) (neighborUpper U cellSize)

/-- The preflight budget gate:
`if estimate_pairs > PROX_PAIR_ESTIMATE_LIMIT: raise SystemExit(...)`. -/
def preflightGate (estimate limit : ℕ) : Except String Unit :=
  if limit < estimate then Except.error "Proximity preflight failed"
  else Except.ok ()

theorem offsets_zero_mem : (0 : Cell) ∈ neighborOffsets := by decide

theorem offsets_neg_mem : ∀ o ∈ neighborOffsets, -o ∈ neighborOffsets := by decide

theorem adjacent_card (U : Finset PStar) (c : ℚ) (a : PStar) :
    (U.filter fun b => (cellOf c b - cellOf c a) ∈ neighborOffsets).card
      = neighborSum U c (cellOf c a) := by
  rw [neighborSum,
    Finset.card_eq_sum_card_fiberwise
      (f := fun b => cellOf c b - cellOf c a) (t := neighborOffsets)
      (fun b hb => (Finset.mem_filter.mp hb).2)]
  apply Finset.sum_congr rfl
  intro o ho
  rw [Finset.filter_filter, cellPop]
  congr 1
  ext b
  simp only [Finset.mem_filter]
  constructor
  · rintro ⟨hbU, _, heq⟩
    rw [sub_eq_iff_eq_add] at heq
    exact ⟨hbU, by rw [heq, add_comm]⟩
  · rintro ⟨hbU, heq⟩
    have hsub : cellOf c b - cellOf c a = o := by
      rw [heq, add_sub_cancel_left]
    exact ⟨hbU, hsub ▸ ho, hsub⟩

theorem adjacent_others_card (U : Finset PStar) (c : ℚ) (a : PStar) (ha : a ∈ U) :
    (U.filter fun b => b ≠ a ∧ (cellOf c b - cellOf c a) ∈ neighborOffsets).card
      = neighborSum U c (cellOf c a) - 1 := by
  have hself : a ∈ U.filter fun b => (cellOf c b - cellOf c a) ∈ neighborOffsets :=
    Finset.mem_filter.mpr ⟨ha, by rw [sub_self]; exact offsets_zero_mem⟩
  have herase : (U.filter fun b =>
      (cellOf c b - cellOf c a) ∈ neighborOffsets).erase a
      = U.filter fun b => b ≠ a ∧ (cellOf c b - cellOf c a) ∈ neighborOffsets := by
    ext b
    simp only [Finset.mem_erase, Finset.mem_filter]
    tauto
  rw [← herase, Finset.card_erase_of_mem hself, adjacent_card U c a]

theorem ordered_adj_card (U : Finset PStar) (c : ℚ) :
    ((U ×ˢ U).filter fun p =>
        p.2 ≠ p.1 ∧ (cellOf c p.2 - cellOf c p.1) ∈ neighborOffsets).card
      = neighborUpperRaw U c := by
  have h1 : ((U ×ˢ U).filter fun p =>
      p.2 ≠ p.1 ∧ (cellOf c p.2 - cellOf c p.1) ∈ neighborOffsets).card
      = ∑ a ∈ U, (U.filter fun b =>
          b ≠ a ∧ (cellOf c b - cellOf c a) ∈ neighborOffsets).card := by
    rw [Finset.card_filter, Finset.sum_product]
    apply Finset.sum_congr rfl
    intro a _
    rw [Finset.card_filter]
  rw [h1]
  have h2 : ∀ a ∈ U, (U.filter fun b =>
      b ≠ a ∧ (cellOf c b - cellOf c a) ∈ neighborOffsets).card
      = neighborSum U c (cellOf c a) - 1 := fun a ha => adjacent_others_card U c a ha
  rw [Finset.sum_congr rfl h2]
  have h3 : ∑ a ∈ U, (neighborSum U c (cellOf c a) - 1)
      = ∑ cl ∈ occupiedCells U c,
          (U.filter fun a => cellOf c a = cl).card • (neighborSum U c cl - 1) :=
    Finset.sum_comp (fun cl => neighborSum U c cl - 1) (cellOf c)
  rw [h3, neighborUpperRaw]
  apply Finset.sum_congr rfl
  intro cl _
  rw [smul_eq_mul, cellPop, Nat.max_zero]

theorem twice_lt_adj_card (U : Finset PStar) (c : ℚ)
    (hinj : ∀ a ∈ U, ∀ b ∈ U, a.star_id = b.star_id → a = b) :
    2 * ((U ×ˢ U).filter fun p => p.1.star_id < p.2.star_id ∧
          (cellOf c p.2 - cellOf c p.1) ∈ neighborOffsets).card
      = ((U ×ˢ U).filter fun p => p.2 ≠ p.1 ∧
          (cellOf c p.2 - cellOf c p.1) ∈ neighborOffsets).card := by
  have hsplit : ((U ×ˢ U).filter fun p => p.2 ≠ p.1 ∧
      (cellOf c p.2 - cellOf c p.1) ∈ neighborOffsets)
      = ((U ×ˢ U).filter fun p => p.1.star_id < p.2.star_id ∧
          (cellOf c p.2 - cellOf c p.1) ∈ neighborOffsets)
        ∪ ((U ×ˢ U).filter fun p => p.2.star_id < p.1.star_id ∧
          (cellOf c p.2 - cellOf c p.1) ∈ neighborOffsets) := by
    ext p
    simp only [Finset.mem_filter, Finset.mem_union, Finset.mem_product]
    constructor
    · rintro ⟨⟨h1U, h2U⟩, hne, hadj⟩
      have hidne : p.1.star_id ≠ p.2.star_id := fun hc =>
        hne (hinj p.2 h2U p.1 h1U hc.symm)
      rcases lt_or_gt_of_ne hidne with hlt | hgt
      · exact Or.inl ⟨⟨h1U, h2U⟩, hlt, hadj⟩
      · exact Or.inr ⟨⟨h1U, h2U⟩, hgt, hadj⟩
    · rintro (⟨hU, hlt, hadj⟩ | ⟨hU, hlt, hadj⟩)
      · exact ⟨hU, fun hc => absurd (congrArg PStar.star_id hc) (by omega), hadj⟩
      · exact ⟨hU, fun hc => absurd (congrArg PStar.star_id hc) (by omega), hadj⟩
  have hdisj : Disjoint
      ((U ×ˢ U).filter fun p => p.1.star_id < p.2.star_id ∧
        (cellOf c p.2 - cellOf c p.1) ∈ neighborOffsets)
      ((U ×ˢ U).filter fun p => p.2.star_id < p.1.star_id ∧
        (cellOf c p.2 - cellOf c p.1) ∈ neighborOffsets) := by
    rw [Finset.disjoint_left]
    intro p hp1 hp2
    have h1 := (Finset.mem_filter.mp hp1).2.1
    have h2 := (Finset.mem_filter.mp hp2).2.1
    omega
  have hswap : ((U ×ˢ U).filter fun p => p.2.star_id < p.1.star_id ∧
      (cellOf c p.2 - cellOf c p.1) ∈ neighborOffsets).card
      = ((U ×ˢ U).filter fun p => p.1.star_id < p.2.star_id ∧
        (cellOf c p.2 - cellOf c p.1) ∈ neighborOffsets).card := by
    apply Finset.card_bij' (fun p _ => Prod.swap p) (fun p _ => Prod.swap p)
    · intro p hp
      obtain ⟨hU, hlt, hadj⟩ := Finset.mem_filter.mp hp
      obtain ⟨h1U, h2U⟩ := Finset.mem_product.mp hU
      refine Finset.mem_filter.mpr ⟨Finset.mem_product.mpr ⟨h2U, h1U⟩, hlt, ?_⟩
      have := offsets_neg_mem _ hadj
      rwa [neg_sub] at this
    · intro p hp
      obtain ⟨hU, hlt, hadj⟩ := Finset.mem_filter.mp hp
      obtain ⟨h1U, h2U⟩ := Finset.mem_product.mp hU
      refine Finset.mem_filter.mpr ⟨Finset.mem_product.mpr ⟨h2U, h1U⟩, hlt, ?_⟩
      have := offsets_neg_mem _ hadj
      rwa [neg_sub] at this
    · intro p _
      exact Prod.swap_swap p
    · intro p _
      exact Prod.swap_swap p
  rw [hsplit, Finset.card_union_of_disjoint hdisj, hswap]
  omega

/-- C1: for every input star set and configuration, the proximity preflight
estimate `max(intra_pairs, neighbor_upper)` is at least the total number of
pairs emitted by the batched pairing join on the same input: the preflight
never under-estimates, and when the estimate passes the budget gate the true
pair count passes it as well. -/
theorem preflight_soundness (U : Finset PStar) (cellSize r2 : ℚ) (limit : ℕ)
    (hinj : ∀ a ∈ U, ∀ b ∈ U, a.star_id = b.star_id → a = b) :
    (emittedPairs U cellSize r2).card ≤ estimatePairs U cellSize ∧
    (preflightGate (estimatePairs U cellSize) limit = Except.ok () →
      preflightGate (emittedPairs U cellSize r2).card limit = Except.ok ()) := by
  have hsub : emittedPairs U cellSize r2 ⊆
      (U ×ˢ U).filter fun p => p.1.star_id < p.2.star_id ∧
        (cellOf cellSize p.2 - cellOf cellSize p.1) ∈ neighborOffsets := by
    intro p hp
    obtain ⟨hU, h1, h2, _⟩ := Finset.mem_filter.mp hp
    exact Finset.mem_filter.mpr ⟨hU, h1, h2⟩
  have h1 : (emittedPairs U cellSize r2).card ≤
      ((U ×ˢ U).filter fun p => p.1.star_id < p.2.star_id ∧
        (cellOf cellSize p.2 - cellOf cellSize p.1) ∈ neighborOffsets).card :=
    Finset.card_le_card hsub
  have h2 := twice_lt_adj_card U cellSize hinj
  rw [ordered_adj_card U cellSize] at h2
  have h3 : ((U ×ˢ U).filter fun p => p.1.star_id < p.2.star_id ∧
      (cellOf cellSize p.2 - cellOf cellSize p.1) ∈ neighborOffsets).card
      = neighborUpper U cellSize := by
    rw [neighborUpper, ← h2, Nat.mul_div_cancel_left _ (by norm_num)]
  have hle : (emittedPairs U cellSize r2).card ≤ estimatePairs U cellSize := by
    rw [estimatePairs]
    calc (emittedPairs U cellSize r2).card
        ≤ neighborUpper U cellSize := h3 ▸ h1
      _ ≤ max (intraPairs U cellSize) (neighborUpper U cellSize) := le_max_right _ _
  refine ⟨hle, ?_⟩
  intro hgate
  unfold preflightGate at hgate ⊢
  by_cases hcond : limit < estimatePairs U cellSize
  · rw [if_pos hcond] at hgate
    exact absurd hgate (by simp)
  · rw [if_neg (by omega : ¬ limit < (emittedPairs U cellSize r2).card)]

theorem preflight_soundness_witness :
    (∀ a ∈ ({⟨1, 0, 0, 0⟩, ⟨2, 1, 0, 0⟩} : Finset PStar),
      ∀ b ∈ ({⟨1, 0, 0, 0⟩, ⟨2, 1, 0, 0⟩} : Finset PStar),
        a.star_id = b.star_id → a = b) ∧
    (emittedPairs {⟨1, 0, 0, 0⟩, ⟨2, 1, 0, 0⟩} (1/4) (1/16)).card
      ≤ estimatePairs {⟨1, 0, 0, 0⟩, ⟨2, 1, 0, 0⟩} (1/4) := by
  have hinj : ∀ a ∈ ({⟨1, 0, 0, 0⟩, ⟨2, 1, 0, 0⟩} : Finset PStar),
      ∀ b ∈ ({⟨1, 0, 0, 0⟩, ⟨2, 1, 0, 0⟩} : Finset PStar),
        a.star_id = b.star_id → a = b := by decide
  exact ⟨hinj, (preflight_soundness {⟨1, 0, 0, 0⟩, ⟨2, 1, 0, 0⟩}
    (1/4) (1/16) 50000000 hinj).1⟩

/-! ### Geometric-consistency QC gate (ingest_core.py lines 1459-1515)

The distance columns are floating-point in the engine; the check is embedded
over the reals, where the spec's boundary cases are exact. -/

/-- One star or system row as read by the `dist_violations` queries. -/
structure QCRow where
  x : Option ℝ
  y : Option ℝ
  z : Option ℝ
  dist_ly : Option ℝ

/-- The WHERE clause of the `dist_violations` queries: all four columns
non-null and `abs(sqrt(x*x + y*y + z*z) - dist_ly) > 1e-3`. -/
def distViolation (r : QCRow) : Prop :=
  ∃ xv yv zv dv, r.x = some xv ∧ r.y = some yv ∧ r.z = some zv ∧
    r.dist_ly = some dv ∧
    |Real.sqrt (xv * xv + yv * yv + zv * zv) - dv| > 1e-3

/-- `if dist_violations_stars + dist_violations_systems > 0: raise SystemExit`:
the counts are positive exactly when some row matches the WHERE clause. -/
def qcDistGateAborts (starRows sysRows : List QCRow) : Prop :=
  (∃ r ∈ starRows, distViolation r) ∨ (∃ r ∈ sysRows, distViolation r)

theorem sqrt_three_four_zero : Real.sqrt ((3 : ℝ) * 3 + 4 * 4 + 0 * 0) = 5 := by
  have h : ((3 : ℝ) * 3 + 4 * 4 + 0 * 0) = 5 ^ 2 := by norm_num
  rw [h, Real.sqrt_sq (by norm_num : (0 : ℝ) ≤ 5)]

/-- C8: the geometric-consistency gate aborts the build iff some star or
system row with non-null coordinates and declared distance deviates from
`sqrt(x^2+y^2+z^2)` by strictly more than `1e-3`; a deviation of exactly
`1e-3` (`x=3, y=4, z=0, dist_ly=5.001`) passes while `1.1e-3`
(`dist_ly=5.0011`) fails. -/
theorem qc_dist_gate_boundary :
    (∀ starRows sysRows : List QCRow,
      qcDistGateAborts starRows sysRows ↔
        ∃ r ∈ starRows ++ sysRows, ∃ xv yv zv dv,
          r.x = some xv ∧ r.y = some yv ∧ r.z = some zv ∧ r.dist_ly = some dv ∧
          |Real.sqrt (xv * xv + yv * yv + zv * zv) - dv| > 1e-3) ∧
    ¬ distViolation ⟨some 3, some 4, some 0, some 5.001⟩ ∧
    distViolation ⟨some 3, some 4, some 0, some 5.0011⟩ := by
  refine ⟨?_, ?_, ?_⟩
  · intro starRows sysRows
    unfold qcDistGateAborts distViolation
    constructor
    · rintro (⟨r, hr, hv⟩ | ⟨r, hr, hv⟩)
      · exact ⟨r, List.mem_append_left _ hr, hv⟩
      · exact ⟨r, List.mem_append_right _ hr, hv⟩
    · rintro ⟨r, hr, hv⟩
      rcases List.mem_append.mp hr with hr | hr
      · exact Or.inl ⟨r, hr, hv⟩
      · exact Or.inr ⟨r, hr, hv⟩
  · rintro ⟨xv, yv, zv, dv, hx, hy, hz, hd, hgt⟩
    obtain rfl := Option.some.inj hx
    obtain rfl := Option.some.inj hy
    obtain rfl := Option.some.inj hz
    obtain rfl := Option.some.inj hd
    rw [sqrt_three_four_zero] at hgt
    have habs : |(5 : ℝ) - 5.001| = 1e-3 := by
      rw [abs_sub_comm]
      rw [abs_of_nonneg (by norm_num : (0 : ℝ) ≤ 5.001 - 5)]
      norm_num
    rw [habs] at hgt
    exact absurd hgt (by norm_num)
  · refine ⟨3, 4, 0, 5.0011, rfl, rfl, rfl, rfl, ?_⟩
    rw [sqrt_three_four_zero]
    have habs : |(5 : ℝ) - 5.0011| = 0.0011 := by
      rw [abs_sub_comm]
      rw [abs_of_nonneg (by norm_num : (0 : ℝ) ≤ 5.0011 - 5)]
      norm_num
    rw [habs]
    norm_num

theorem qc_dist_gate_boundary_witness :
    qcDistGateAborts [⟨some 3, some 4, some 0, some 5.0011⟩] [] ↔
      ∃ r ∈ [(⟨some 3, some 4, some 0, some 5.0011⟩ : QCRow)] ++ ([] : List QCRow),
        ∃ xv yv zv dv,
          r.x = some xv ∧ r.y = some yv ∧ r.z = some zv ∧ r.dist_ly = some dv ∧
          |Real.sqrt (xv * xv + yv * yv + zv * zv) - dv| > 1e-3 :=
  qc_dist_gate_boundary.1 [⟨some 3, some 4, some 0, some 5.0011⟩] []

/-! ### Fatal gates and atomic promotion (ingest_core.py lines 366-382,
574-585, 838-850, 1026-1030, 1436-1440, 1511-1532)

`main` writes everything into `tmp_out_dir` and only renames it to
`final_out_dir` on the last lines, after every gate; each fatal condition
raises `SystemExit` first.  The control flow is embedded as a function from
the gate-relevant quantities to (final directory promoted?, error). -/

/-- The quantities the fatal gates inspect, in the order `main` checks them. -/
structure BuildGates where
  maxAbsCoord : Option ℚ
  proximityEnabled : Bool
  proxEligible : ℕ
  estimate : ℕ
  coverageTotal : ℕ
  coverageGrouped : ℕ
  coverageDupes : ℕ
  provenanceFailures : ℕ
  distViolationsStars : ℕ
  distViolationsSystems : ℕ

/-- The run of `main` from the Morton-domain validation to the final rename:
first component is whether `tmp_out_dir` was renamed to the served
`final_out_dir`, second is the fatal error, if any. -/
def runBuild (g : BuildGates) : Bool × Option String :=
  if ∃ m, g.maxAbsCoord = some m ∧ MORTON_MAX_ABS_LY < m then
    (false, some "Morton domain exceeded")
  else if g.proximityEnabled = true ∧ 0 < g.proxEligible ∧
      PROX_PAIR_ESTIMATE_LIMIT < g.estimate then
    (false, some "Proximity preflight failed")
  else if g.coverageGrouped ≠ g.coverageTotal ∨ g.coverageDupes ≠ 0 then
    (false, some "System grouping failed")
  else if 0 < g.provenanceFailures then
    (false, some "Provenance QC failed")
  else if 0 < g.distViolationsStars + g.distViolationsSystems then
    (false, some "QC failed: distance invariant violations detected")
  else
    (true, none)

/-- C9: on every fatal condition the build exits before the temporary output
directory is renamed to the served location: the final output directory is
promoted iff no gate raised, i.e. iff the domain, preflight, coverage,
provenance and geometric gates all passed; no partial output is ever
promoted. -/
theorem atomic_promotion (g : BuildGates) :
    ((runBuild g).1 = true ↔ (runBuild g).2 = none) ∧
    ((runBuild g).1 = true ↔
      ((∀ m, g.maxAbsCoord = some m → m ≤ MORTON_MAX_ABS_LY) ∧
       (g.proximityEnabled = true → 0 < g.proxEligible →
         g.estimate ≤ PROX_PAIR_ESTIMATE_LIMIT) ∧
       g.coverageGrouped = g.coverageTotal ∧ g.coverageDupes = 0 ∧
       g.provenanceFailures = 0 ∧
       g.distViolationsStars + g.distViolationsSystems = 0)) := by
  unfold runBuild
  split_ifs with h1 h2 h3 h4 h5
  · refine ⟨by simp, ?_⟩
    constructor
    · intro hc
      exact absurd hc (by simp)
    · rintro ⟨hdom, _, _, _, _, _⟩
      obtain ⟨m, hm, hmlt⟩ := h1
      exact absurd (hdom m hm) (not_le.mpr hmlt)
  · refine ⟨by simp, ?_⟩
    constructor
    · intro hc
      exact absurd hc (by simp)
    · rintro ⟨_, hpre, _, _, _, _⟩
      obtain ⟨hp, he, hl⟩ := h2
      exact absurd (hpre hp he) (not_le.mpr hl)
  · refine ⟨by simp, ?_⟩
    constructor
    · intro hc
      exact absurd hc (by simp)
    · rintro ⟨_, _, hcov1, hcov2, _, _⟩
      rcases h3 with hc | hc
      · exact absurd hcov1 hc
      · exact absurd hcov2 hc
  · refine ⟨by simp, ?_⟩
    constructor
    · intro hc
      exact absurd hc (by simp)
    · rintro ⟨_, _, _, _, hprov, _⟩
      omega
  · refine ⟨by simp, ?_⟩
    constructor
    · intro hc
      exact absurd hc (by simp)
    · rintro ⟨_, _, _, _, _, hdist⟩
      omega
  · refine ⟨by simp, ?_⟩
    constructor
    · intro _
      push_neg at h1 h2 h3
      refine ⟨?_, ?_, h3.1, ?_, by omega, by omega⟩
      · intro m hm
        exact h1 m hm
      · intro hp he
        exact h2 hp he
      · exact h3.2
    · intro _
      rfl

theorem atomic_promotion_witness :
    ((runBuild ⟨some 1500, false, 0, 0, 10, 10, 0, 0, 0, 0⟩).1 = true ↔
      (runBuild ⟨some 1500, false, 0, 0, 10, 10, 0, 0, 0, 0⟩).2 = none) ∧
    ((runBuild ⟨some 999, false, 0, 0, 10, 10, 0, 0, 0, 0⟩).1 = true ↔
      (runBuild ⟨some 999, false, 0, 0, 10, 10, 0, 0, 0, 0⟩).2 = none) :=
  ⟨(atomic_promotion ⟨some 1500, false, 0, 0, 10, 10, 0, 0, 0, 0⟩).1,
   (atomic_promotion ⟨some 999, false, 0, 0, 10, 10, 0, 0, 0, 0⟩).1⟩

/-! ### The distance filter ahead of the Morton-domain validation
(ingest_core.py lines 554-556 and 574-585) -/

/-- One row of the `converted` CTE (coordinates and the declared-or-derived
distance, already in light-years). -/
structure ConvRow where
  x_helio_ly : Option ℚ
  y_helio_ly : Option ℚ
  z_helio_ly : Option ℚ
  dist_ly : Option ℚ

/-- The `filtered` CTE:
`where dist_ly is not null and dist_ly <= MORTON_MAX_ABS_LY`. -/
def survivesFilter (r : ConvRow) : Bool :=
  match r.dist_ly with
  | some d => decide (d ≤ MORTON_MAX_ABS_LY)
  | none => false

/-- `stars_stage_base` restricted to the columns at play: the filter runs
before anything else sees the rows. -/
def starsStageBase (rows : List ConvRow) : List ConvRow :=
  rows.filter survivesFilter

/-- Whether a row would trip the Morton-domain validation (the aggregate max
of `greatest(abs(x), abs(y), abs(z))` over `stars_stage_base` exceeds the
bound iff some surviving row has a non-null axis beyond the bound). -/
def axisExceeds (r : ConvRow) : Bool :=
  (match r.x_helio_ly with
   | some v => decide (MORTON_MAX_ABS_LY < |v|)
   | none => false) ||
  (match r.y_helio_ly with
   | some v => decide (MORTON_MAX_ABS_LY < |v|)
   | none => false) ||
  (match r.z_helio_ly with
   | some v => decide (MORTON_MAX_ABS_LY < |v|)
   | none => false)

/-- The Morton-domain validation over the filtered rows. -/
def mortonValidationAborts (rows : List ConvRow) : Bool :=
  (starsStageBase rows).any axisExceeds

/-- C10: every row of the built stars table has a non-null `dist_ly` at most
`MORTON_MAX_ABS_LY = 1000` ly; an input row whose declared or derived
distance is null or exceeds the bound is silently dropped by the `filtered`
CTE before the Morton-domain validation runs, and its presence changes
neither the table nor the validation's outcome - it never fails the build. -/
theorem filtered_rows_distance (rows : List ConvRow) :
    MORTON_MAX_ABS_LY = 1000 ∧
    (∀ r ∈ starsStageBase rows, ∃ d, r.dist_ly = some d ∧ d ≤ MORTON_MAX_ABS_LY) ∧
    (∀ bad : ConvRow, survivesFilter bad = false →
      starsStageBase (bad :: rows) = starsStageBase rows ∧
      mortonValidationAborts (bad :: rows) = mortonValidationAborts rows) := by
  refine ⟨rfl, ?_, ?_⟩
  · intro r hr
    have hs : survivesFilter r = true := List.of_mem_filter hr
    unfold survivesFilter at hs
    cases hd : r.dist_ly with
    | none => rw [hd] at hs; exact absurd hs (by simp)
    | some d =>
      rw [hd] at hs
      exact ⟨d, rfl, by simpa using hs⟩
  · intro bad hbad
    have hfil : starsStageBase (bad :: rows) = starsStageBase rows := by
      unfold starsStageBase
      simp [List.filter_cons, hbad]
    exact ⟨hfil, by unfold mortonValidationAborts; rw [hfil]⟩

theorem filtered_rows_distance_witness :
    survivesFilter ⟨some 0, some 0, some 0, none⟩ = false ∧
    starsStageBase [(⟨some 0, some 0, some 0, none⟩ : ConvRow)] = starsStageBase [] ∧
    mortonValidationAborts [(⟨some 0, some 0, some 0, none⟩ : ConvRow)]
      = mortonValidationAborts [] := by
  have hbad : survivesFilter (⟨some 0, some 0, some 0, none⟩ : ConvRow) = false := rfl
  obtain ⟨_, _, hdrop⟩ := filtered_rows_distance ([] : List ConvRow)
  obtain ⟨h1, h2⟩ := hdrop ⟨some 0, some 0, some 0, none⟩ hbad
  exact ⟨hbad, h1, h2⟩

end Spacegate
